import Mathlib

/-!
Verification development for the RedFruitCOT repository.

The repository consists of two Python scripts:
  * `redfruit.py` — an iterative generate/feedback/grade/refine loop over
    three candidate answers produced by an external model service, writing a
    plain-text transcript (`response.txt`).
  * `htmlize.py` — a renderer that reads the transcript and produces a static
    HTML report (`response.html`).

This file shallowly embeds the string processing and control flow of both
scripts.  Strings are modelled as `List Char`.  Python `str.split`,
`str.replace` and `str.strip` are embedded by `pySplit`, `pyReplace` and
`stripChars` (Python's `replace` is equivalent to splitting on the pattern and
joining with the replacement; `split`/`replace` act on non-overlapping
occurrences scanned left to right).  The character classes `\w`, `\s`, `\d`
of the `re` module and `str.strip`'s whitespace set are modelled over ASCII,
which covers every input considered here.  Wall-clock durations are modelled
as exact centisecond counts, so that the `%.2f` formatting of the scripts
becomes exact arithmetic.  The external model service (AWS Bedrock) is
modelled as an oracle supplying the text of each call's reply, or a
client-level error.
-/

/-! ## Characters: ASCII models of the `\w` and `\s` classes and `str.strip` -/

/-- ASCII model of the regex word-character class `\w` (letters, digits, underscore),
used by the `\b` word-boundary assertions in `redfruit.py` line 69. -/
def isWordChar (c : Char) : Bool := c.isAlphanum || c == '_'

/-- ASCII model of the regex whitespace class `\s` and of the character set
stripped by Python `str.strip()`. -/
def isSpaceChar (c : Char) : Bool :=
  c == ' ' || c == '\t' || c == '\n' || c == '\r' || c == '\x0B' || c == '\x0C'

/-- Python `str.strip()`: remove leading and trailing whitespace. -/
def stripChars (s : List Char) : List Char :=
  ((s.dropWhile isSpaceChar).reverse.dropWhile isSpaceChar).reverse

/-! ## Python `str.split` / `str.replace`

`findOcc sep s` returns `some (b, a)` when `s = b ++ sep ++ a` and this is the
leftmost occurrence of `sep` in `s`, and `none` when `sep` does not occur.
`pySplit` splits on every non-overlapping occurrence left to right, exactly as
Python `str.split(sep)` does; `pyReplace old new s` is Python
`s.replace(old, new)`, i.e. the split on `old` joined with `new`. -/

/-- Leftmost occurrence of `sep` in `s`: the text before it and the text after it. -/
def findOcc (sep : List Char) : List Char → Option (List Char × List Char)
  | [] => if sep.isEmpty then some ([], []) else none
  | c :: rest =>
    if sep.isPrefixOf (c :: rest) then some ([], (c :: rest).drop sep.length)
    else
      match findOcc sep rest with
      | some (b, a) => some (c :: b, a)
      | none => none

/-- Fuelled worker for `pySplit` (the fuel only serves to make the recursion
structural; `pySplit` supplies enough fuel for it never to run out). -/
def pySplitGo (sep : List Char) : Nat → List Char → List (List Char)
  | 0, s => [s]
  | fuel + 1, s =>
    match findOcc sep s with
    | none => [s]
    | some (b, a) => b :: pySplitGo sep fuel a

/-- Python `s.split(sep)` for a non-empty separator. -/
def pySplit (sep s : List Char) : List (List Char) := pySplitGo sep (s.length + 1) s

/-- Join a list of parts, placing `sep` between consecutive parts. -/
def joinWith (sep : List Char) : List (List Char) → List Char
  | [] => []
  | [p] => p
  | p :: ps => p ++ sep ++ joinWith sep ps

/-- Python `s.replace(old, new)` for a non-empty `old`. -/
def pyReplace (old new s : List Char) : List Char := joinWith new (pySplit old s)

/-- The pattern `sep` occurs as a contiguous substring of `s`. -/
def OccursSub (sep s : List Char) : Prop := ∃ b a, s = b ++ sep ++ a

/-- No occurrence of `sep` starts at any position `i < k` of `s`
(decidable, used to pin down the position of the first occurrence). -/
def NoPrefixBefore (sep s : List Char) (k : Nat) : Prop :=
  ∀ i < k, ¬ (sep.isPrefixOf (s.drop i) = true)

instance instDecNoPrefixBefore (sep s : List Char) (k : Nat) :
    Decidable (NoPrefixBefore sep s k) :=
  inferInstanceAs (Decidable (∀ i < k, ¬ (sep.isPrefixOf (s.drop i) = true)))

/-! ## `htmlize.py`: splitting the transcript at the marker -/

/-- The marker separating the response section from the summary
(`htmlize.py` line 16). -/
def marker : List Char := "SUMMARY OF PROCESS".data

/-- Lines 16-17 of `htmlize.py`: `parts = content.split("SUMMARY OF PROCESS")`;
`response = parts[0].strip()`. -/
def responsePart (content : List Char) : List Char :=
  stripChars ((pySplit marker content).headD [])

/-- Lines 16,18 of `htmlize.py`: `summary = parts[1].strip() if len(parts) > 1 else ""`. -/
def summaryPart (content : List Char) : List Char :=
  match pySplit marker content with
  | _ :: p1 :: _ => stripChars p1
  | _ => []

/-! ## `htmlize.py`: escaping, bold substitution and the HTML document

`htmlEscape` models `html.escape` with the default `quote=True` (Python
escapes `&` first, then `<`, `>`, `"`, `'`).  `renderBody` models the full
substitution chain of `htmlize.py` lines 39/43 that produces the text placed
inside the `<p>` element of each section. -/

/-- Python `html.escape(s)` (with its default `quote=True`). -/
def htmlEscape (s : List Char) : List Char :=
  pyReplace ['\x27'] "&#x27;".data
    (pyReplace ['\x22'] "&quot;".data
      (pyReplace ['>'] "&gt;".data
        (pyReplace ['<'] "&lt;".data
          (pyReplace ['&'] "&amp;".data s))))

/-- The replacement chain applied to each section text (`htmlize.py` lines 39/43):
escape, then `** -> <strong>`, `</strong>** -> </strong>`,
`\n\n -> </p><p>`, `\n -> <br>`. -/
def renderBody (s : List Char) : List Char :=
  pyReplace ['\n'] "<br>".data
    (pyReplace ['\n', '\n'] "</p><p>".data
      (pyReplace "</strong>**".data "</strong>".data
        (pyReplace "**".data "<strong>".data (htmlEscape s))))

/-- Every `<` in the text is immediately followed by `s` (true of the text
after the bold substitution: its only `<` characters open `<strong>` tags). -/
def LtS (e : List Char) : Prop :=
  ∀ b a, e = b ++ '<' :: a → ∃ t, a = 's' :: t

/-- Every `<` in the text is immediately followed by `s`, `b`, `p` or `/p`
(true of the final rendered body: its `<` characters open `<strong>`, `<br>`,
`<p>` or `</p>` tags).  In particular the text never contains `</s`. -/
def TagOk (e : List Char) : Prop :=
  ∀ b a, e = b ++ '<' :: a →
    (∃ t, a = 's' :: t) ∨ (∃ t, a = 'b' :: t) ∨ (∃ t, a = 'p' :: t) ∨
      (∃ t, a = '/' :: 'p' :: t)

/-- Template text of `htmlize.py` lines 20-39 up to the response body
(the doubled braces of the f-string render as single braces). -/
def htmlTplPre : List Char :=
  ("\n    <!DOCTYPE html>\n    <html lang=\x22en\x22>\n    <head>\n        <meta charset=\x22UTF-8\x22>\n        <meta name=\x22viewport\x22 content=\x22width=device-width, initial-scale=1.0\x22>\n        <title>COT Python Script Response</title>\n        <style>\n            body \x7b font-family: Arial, sans-serif; line-height: 1.6; padding: 20px; \x7d\n            h1, h2 \x7b color: #333; \x7d\n            .section \x7b background-color: #f0f0f0; padding: 15px; margin-bottom: 20px; \x7d\n            .section p \x7b font-size: 0.9em; \x7d\n            .metadata \x7b font-weight: bold; margin-left: 20px; \x7d\n        </style>\n    </head>\n    <body>\n        <h1>COT Python Script Response</h1>\n        <div class=\x22section\x22>\n            <h2>Response</h2>\n            <p>").data

/-- Template text between the response body and the summary body
(`htmlize.py` lines 39-43). -/
def htmlTplMid : List Char :=
  ("</p>\n        </div>\n        <div class=\x22section\x22>\n            <h2>Summary of Process</h2>\n            <p>").data

/-- Template text after the summary body (`htmlize.py` lines 43-54),
including the hardcoded metadata placeholders. -/
def htmlTplPost : List Char :=
  ("</p>\n        </div>\n        <div class=\x22metadata\x22>\n            <p><strong>Model:</strong> meta.llama3-70b-instruct-v1:0</p>\n            <p><strong>Input tokens:</strong> 698</p>\n            <p><strong>Output tokens:</strong> 478</p>\n            <p><strong>Total tokens:</strong> 1176</p>\n            <p><strong>Stop reason:</strong> end_turn</p>\n        </div>\n    </body>\n    </html>\n    ").data

/-- The complete HTML document built from a transcript content string. -/
def htmlDoc (content : List Char) : List Char :=
  htmlTplPre ++ renderBody (responsePart content) ++ htmlTplMid
    ++ renderBody (summaryPart content) ++ htmlTplPost

/-- What reading `response.txt` produced. -/
inductive ReadResult where
  | fileOk (content : List Char)
  | fileNotFound
  | readFailure
deriving DecidableEq

/-- Whether writing `response.html` succeeds. -/
inductive WriteResult where
  | writeOk
  | writeFailure
deriving DecidableEq

/-- Observable outcome of `generate_html`: either the document was written and
a success message printed, or a console error message was printed (on a read
failure the function returns early and nothing is written). -/
inductive HtmlOutcome where
  | success (written msg : List Char)
  | writeFailed (msg : List Char)
  | readFailed (msg : List Char)
deriving DecidableEq

/-- Lines 3-62 of `htmlize.py`: control flow of `generate_html`, as a function of
the result of the read of `response.txt` and of the attempted write of
`response.html`. -/
def generate_html (r : ReadResult) (w : WriteResult) : HtmlOutcome :=
  match r with
  | .fileNotFound => .readFailed ("Error: response.txt file not found.").data
  | .readFailure => .readFailed ("Error: Unable to read response.txt file.").data
  | .fileOk content =>
    match w with
    | .writeOk =>
        .success (htmlDoc content)
          ("HTML file \x27response.html\x27 has been generated successfully.").data
    | .writeFailure => .writeFailed ("Error: Unable to write to response.html file.").data

/-! ## `redfruit.py`: the grade extractor

`redfruit.py` line 69 searches the (stripped) grading text with the Python
regex `(\b-?\d{1,3}\b)(?=\s*out\s*of\s*100)` and converts the match to `int`.
The search is embedded operationally: `re.search` tries each start position
left to right; at a position the engine first checks the word boundary `\b`,
then matches the optional minus (greedily), one to three digits (greedily,
longest first), the closing `\b`, and finally the lookahead
`\s*out\s*of\s*100`.  Since `\s` and the letters of `out`/`of`/`100` are
disjoint, the greedy `\s*` inside the lookahead is deterministic. -/

/-- Numeric value of a digit string (most significant digit first). -/
def decodeDigits (ds : List Char) : Nat :=
  ds.foldl (fun acc c => 10 * acc + (c.toNat - '0'.toNat)) 0

/-- Whether the character before the current position is a word character
(`none` stands for the start of the text). -/
def prevIsWord : Option Char → Bool
  | none => false
  | some c => isWordChar c

/-- Take exactly `k` leading characters of `s` when all of them are digits. -/
def takeExactDigits (k : Nat) (s : List Char) : Option (List Char × List Char) :=
  let ds := s.take k
  if ds.length == k && ds.all Char.isDigit then some (ds, s.drop k) else none

/-- The word boundary `\b` placed right after a digit: satisfied when the next
character is absent or not a word character. -/
def boundaryAfter (s : List Char) : Bool :=
  match s with
  | [] => true
  | c :: _ => !(isWordChar c)

/-- The lookahead `(?=\s*out\s*of\s*100)`. -/
def lookAfter (s : List Char) : Bool :=
  let s1 := s.dropWhile isSpaceChar
  if ("out".data).isPrefixOf s1 then
    let s2 := (s1.drop 3).dropWhile isSpaceChar
    if ("of".data).isPrefixOf s2 then
      let s3 := (s2.drop 2).dropWhile isSpaceChar
      ("100".data).isPrefixOf s3
    else false
  else false

/-- Try to match exactly `k` digits at the front of `s`, followed by the
closing `\b` and the lookahead; `neg` records whether a minus sign was
consumed. -/
def attemptLen (neg : Bool) (s : List Char) (k : Nat) : Option Int :=
  match takeExactDigits k s with
  | some (ds, rest) =>
    if boundaryAfter rest && lookAfter rest then
      some (if neg then -(decodeDigits ds : Int) else (decodeDigits ds : Int))
    else none
  | none => none

/-- Greedy `\d{1,3}`: try three digits, then two, then one. -/
def attemptDigits (neg : Bool) (s : List Char) : Option Int :=
  ((attemptLen neg s 3).orElse fun _ =>
    attemptLen neg s 2).orElse fun _ =>
      attemptLen neg s 1

/-- Try to match the whole pattern starting exactly at the current position
(`prev` is the character before that position).  The leading `\b` holds for
the minus branch precisely when `prev` is a word character, and for the digit
branch precisely when it is not. -/
def tryMatchAt (prev : Option Char) (s : List Char) : Option Int :=
  match s with
  | [] => none
  | c :: rest =>
    if c == '-' then
      if prevIsWord prev then attemptDigits true rest else none
    else if c.isDigit then
      if prevIsWord prev then none else attemptDigits false (c :: rest)
    else none

/-- Model of `re.search`: try every start position left to right. -/
def searchGrade : Option Char → List Char → Option Int
  | _, [] => none
  | prev, c :: rest =>
    match tryMatchAt prev (c :: rest) with
    | some v => some v
    | none => searchGrade (some c) rest

/-- The failure message of `redfruit.py` line 73. -/
def gradeErrMsg (t : List Char) : List Char :=
  ("Could not extract a valid grade from the response: ").data ++ t

deriving instance DecidableEq for Except

/-- Lines 65-73 of `redfruit.py`: strip the grading text, search for the grade
pattern, return the matched integer or raise `ValueError`. -/
def grade_response (gradingText : List Char) : Except (List Char) Int :=
  match searchGrade none (stripChars gradingText) with
  | some v => Except.ok v
  | none => Except.error (gradeErrMsg (stripChars gradingText))

/-- Spec-side reading of the claim on the grade extractor (C1): the text
contains, verbatim, the decimal rendering of `n` (1-3 digits, optional
leading minus) immediately followed by the literal text `" out of 100"`. -/
def SpecGradePattern (t : List Char) (n : Int) : Prop :=
  -999 ≤ n ∧ n ≤ 999 ∧ ∃ pre post, t = pre ++ (toString n).data ++ (" out of 100").data ++ post

/-! ## `redfruit.py`: data model of the run

A `Candidate` models one of the per-response dictionaries built in `main`
(`redfruit.py` line 108): `feedback`/`grade` start as `None` and the two
extra timing keys are absent until the first iteration sets them, which the
`Option` fields reflect.  An `Oracle` supplies the text of each model reply
(or a client-level error with its message), and the measured durations in
centiseconds; it stands for the Bedrock service together with the wall clock. -/

structure Candidate where
  response : List Char
  feedback : Option (List Char)
  grade : Option Int
  time_taken : Nat
  feedback_time_taken : Option Nat
  grade_time_taken : Option Nat
deriving DecidableEq

/-- The two failure kinds of the run: `botocore` `ClientError` (caught at the
top of `main`) and the `ValueError` raised by `grade_response` (never caught). -/
inductive PyError where
  | clientError (msg : List Char)
  | gradeParse (msg : List Char)
deriving DecidableEq

/-- The external collaborator: one field per call site of
`generate_conversation`, plus the measured durations. -/
structure Oracle where
  seed : Nat → Except (List Char) (List Char)
  seedTime : Nat → Nat
  feedback : List Char → Except (List Char) (List Char)
  feedbackTime : Nat → Nat → Nat
  gradeRaw : List Char → List Char → Except (List Char) (List Char)
  gradeTime : Nat → Nat → Nat
  refine : List Char → Except (List Char) (List Char)
  totalTime : Nat

/-- Lines 101-108 of `redfruit.py`: generate the initial responses in order
(`main` uses `range(3)`; the count is a parameter here). -/
def seedMany (o : Oracle) : Nat → Except PyError (List Candidate)
  | 0 => .ok []
  | k + 1 =>
    match seedMany o k with
    | .error e => .error e
    | .ok cs =>
      match o.seed k with
      | .error m => .error (.clientError m)
      | .ok t =>
        .ok (cs ++ [{ response := t, feedback := none, grade := none,
                      time_taken := o.seedTime k, feedback_time_taken := none,
                      grade_time_taken := none }])

/-- Lines 113-126 of `redfruit.py`: one candidate's feedback and grading step in
iteration `round` at list index `i` (the feedback fields are stored before
the grading call is made). -/
def stepCandidate (o : Oracle) (round i : Nat) (c : Candidate) : Except PyError Candidate :=
  match o.feedback c.response with
  | .error m => .error (.clientError m)
  | .ok fb =>
    let c1 := { c with feedback := some fb,
                       feedback_time_taken := some (o.feedbackTime round i) }
    match o.gradeRaw c.response fb with
    | .error m => .error (.clientError m)
    | .ok gtext =>
      match grade_response gtext with
      | .error m => .error (.gradeParse m)
      | .ok g =>
        .ok { c1 with grade := some g, grade_time_taken := some (o.gradeTime round i) }

/-- The inner `for i, r in enumerate(responses)` loop of one iteration. -/
def fgList (o : Oracle) (round : Nat) : Nat → List Candidate → Except PyError (List Candidate)
  | _, [] => .ok []
  | i, c :: cs =>
    match stepCandidate o round i c with
    | .error e => .error e
    | .ok c1 =>
      match fgList o round (i + 1) cs with
      | .error e => .error e
      | .ok cs1 => .ok (c1 :: cs1)

/-- The sort key of `redfruit.py` line 129 (`lambda x: x['grade']`).  At the
call site every grade has been set by the grading pass; the default `0` is
never reached in `main`. -/
def gradeKey (c : Candidate) : Int := c.grade.getD 0

/-- Stable insertion into a descending-sorted list: the new element (which
comes earlier in the input) goes before every element of equal or smaller key. -/
def insertCand (c : Candidate) : List Candidate → List Candidate
  | [] => [c]
  | d :: ds => if gradeKey d ≤ gradeKey c then c :: d :: ds else d :: insertCand c ds

/-- Line 129 of `redfruit.py`: `sorted(responses, key=lambda x: x['grade'],
reverse=True)`.  Python's `sorted` is the stable descending sort by the key;
a stable sort for a fixed total preorder is unique, so stable insertion sort
is the same function. -/
def sortResponses (rs : List Candidate) : List Candidate := rs.foldr insertCand []

/-- Lines 134-141 of `redfruit.py`: refine the text of `responses[0]`, leaving
every other field and every other candidate untouched (an empty list would
raise `IndexError` in Python; `main` always passes three candidates). -/
def refineStep (o : Oracle) (rs : List Candidate) : Except PyError (List Candidate) :=
  match rs with
  | [] => .ok []
  | c :: rest =>
    match o.refine c.response with
    | .error m => .error (.clientError m)
    | .ok t => .ok ({ c with response := t } :: rest)

/-- One iteration of the outer loop (`redfruit.py` lines 111-141):
feedback and grade every candidate, sort by grade descending, refine the top. -/
def runRound (o : Oracle) (round : Nat) (rs : List Candidate) : Except PyError (List Candidate) :=
  match fgList o round 0 rs with
  | .error e => .error e
  | .ok g => refineStep o (sortResponses g)

/-- The loop `for iteration in range(num_iterations)`, starting at iteration `round`. -/
def runRoundsFrom (o : Oracle) (round : Nat) : Nat → List Candidate → Except PyError (List Candidate)
  | 0, rs => .ok rs
  | k + 1, rs =>
    match runRound o round rs with
    | .error e => .error e
    | .ok rs1 => runRoundsFrom o (round + 1) k rs1

/-! ## `redfruit.py`: the summary written to `response.txt` -/

/-- Exact rendering of Python's `f"{t:.2f}"` for a duration of `t`
centiseconds. -/
def format2dp (t : Nat) : List Char :=
  (toString (t / 100)).data ++
    '.' :: (if t % 100 < 10 then '0' :: (toString (t % 100)).data
            else (toString (t % 100)).data)

/-- Python `str` of a value that may be `None` (an integer here). -/
def optIntText (g : Option Int) : List Char :=
  match g with
  | none => ("None").data
  | some v => (toString v).data

/-- Python `str` of a value that may be `None` (a string here). -/
def optStrText (s : Option (List Char)) : List Char :=
  match s with
  | none => ("None").data
  | some t => t

/-- The per-candidate block written by `redfruit.py` lines 151-157 for the
candidate at (0-based) index `i`; `none` models the `KeyError` raised when a
timing key is absent (possible only when no iteration ran). -/
def candidateBlock (i : Nat) (c : Candidate) : Option (List Char) :=
  match c.feedback_time_taken, c.grade_time_taken with
  | some ft, some gt =>
    some (("\nResponse ").data ++ (toString (i + 1)).data ++ (":\n").data
      ++ ("Response: ").data ++ c.response ++ ['\n']
      ++ ("Feedback: ").data ++ optStrText c.feedback ++ ['\n']
      ++ ("Grade: ").data ++ optIntText c.grade ++ ['\n']
      ++ ("Response generation time: ").data ++ format2dp c.time_taken ++ (" seconds\n").data
      ++ ("Feedback generation time: ").data ++ format2dp ft ++ (" seconds\n").data
      ++ ("Grading time: ").data ++ format2dp gt ++ (" seconds\n").data)
  | _, _ => none

/-- All candidate blocks in order, numbering from index `i`. -/
def summaryBlocks : Nat → List Candidate → Option (List Char)
  | _, [] => some []
  | i, c :: cs =>
    match candidateBlock i c, summaryBlocks (i + 1) cs with
    | some b, some bs => some (b ++ bs)
    | _, _ => none

/-- The separator written by `redfruit.py` lines 148 and 158 (`"=" * 40`). -/
def sep40 : List Char := List.replicate 40 '='

/-- The opening of the summary (`redfruit.py` lines 147-149): marker line,
separator line, total-time line. -/
def summaryHeader (totalTime : Nat) : List Char :=
  ("\nSUMMARY OF PROCESS\n").data ++ sep40 ++ ['\n']
    ++ ("Total time taken for the process: ").data ++ format2dp totalTime
    ++ (" seconds\n").data

/-- The closing of the summary (`redfruit.py` lines 158-159): trailing
separator and the best-response line built from `responses[0]`. -/
def bestLine (r0 : Candidate) : List Char :=
  sep40 ++ ['\n'] ++ ("Best response: ").data ++ r0.response ++ (" (Grade: ").data
    ++ optIntText r0.grade ++ (")\n").data

/-- Lines 147-159 of `redfruit.py`: the full text written to `response.txt`
(the only writes of the run).  `none` models the uncaught `KeyError` /
`IndexError` cases, which cannot occur after at least one iteration over a
non-empty candidate list.  (In Python such an exception would leave the lines
already written in the file; no claim depends on that partial content.) -/
def summaryText (totalTime : Nat) (rs : List Candidate) : Option (List Char) :=
  match rs with
  | [] => none
  | r0 :: _ =>
    (summaryBlocks 0 rs).map
      (fun blocks => summaryHeader totalTime ++ blocks ++ bestLine r0)

/-! ## `redfruit.py`: the whole run -/

/-- Observable outcome of `main`: the transcript written on success; the
printed message and (empty) file content when a `ClientError` is caught at
the top level; the escaping `ValueError` when grade parsing fails (nothing
has been written in that case either, since all model calls precede all
writes); or the degenerate summary failures. -/
inductive RunOutcome where
  | completed (fileContent : List Char)
  | abortedClient (printed : List Char) (fileContent : List Char)
  | uncaughtGradeParse (msg : List Char) (fileContent : List Char)
  | uncaughtOther
deriving DecidableEq

/-- Seed phase followed by all iterations (`redfruit.py` lines 100-141). -/
def runBody (o : Oracle) (n : Nat) : Except PyError (List Candidate) :=
  match seedMany o 3 with
  | .error e => .error e
  | .ok seeds => runRoundsFrom o 0 n seeds

/-- The message printed by the top-level handler (`redfruit.py` line 163). -/
def clientPrint (m : List Char) : List Char := ("A client error occurred: ").data ++ m

/-- Lines 75-163 of `redfruit.py`: the whole run (`main` in the source;
renamed because Lean reserves `main` for executables).  `except ClientError`
is the only handler; a `ValueError` from grading escapes. -/
def mainRun (o : Oracle) (numIterations : Nat) : RunOutcome :=
  match runBody o numIterations with
  | .error (.clientError m) => .abortedClient (clientPrint m) []
  | .error (.gradeParse m) => .uncaughtGradeParse m []
  | .ok rs =>
    match summaryText o.totalTime rs with
    | some txt => .completed txt
    | none => .uncaughtOther

/-! ## Spec-side rendering of the summary (for the refinement claim C7)

`specSummary` follows the words of the spec: "a literal marker line
SUMMARY OF PROCESS, a separator line of 40 `=` characters", the total
wall-clock time, "then per-candidate blocks (Response N:, Response:,
Feedback:, Grade:, three timing lines with two-decimal seconds), a trailing
separator, and a final Best response: <text> (Grade: <grade>) line", the
candidates taken "in the order left by the last sort". -/

/-- The all-`None` dictionary shape, used only as a default. -/
def emptyCand : Candidate :=
  { response := [], feedback := none, grade := none, time_taken := 0,
    feedback_time_taken := none, grade_time_taken := none }

/-- One spec-side candidate block (fields assumed present, as after a round). -/
def specBlock (i : Nat) (c : Candidate) : List Char :=
  ("\nResponse ").data ++ (toString (i + 1)).data ++ (":\n").data
    ++ ("Response: ").data ++ c.response ++ ['\n']
    ++ ("Feedback: ").data ++ (c.feedback.getD []) ++ ['\n']
    ++ ("Grade: ").data ++ (toString (c.grade.getD 0)).data ++ ['\n']
    ++ ("Response generation time: ").data ++ format2dp c.time_taken ++ (" seconds\n").data
    ++ ("Feedback generation time: ").data ++ format2dp (c.feedback_time_taken.getD 0) ++ (" seconds\n").data
    ++ ("Grading time: ").data ++ format2dp (c.grade_time_taken.getD 0) ++ (" seconds\n").data

/-- The spec's description of the summary section, assembled as one flat
concatenation over the enumerated candidate list. -/
def specSummary (totalTime : Nat) (rs : List Candidate) : List Char :=
  ('\n' :: marker) ++ ['\n']
    ++ sep40 ++ ['\n']
    ++ ("Total time taken for the process: ").data ++ format2dp totalTime ++ (" seconds\n").data
    ++ (rs.enum.map (fun p => specBlock p.1 p.2)).flatten
    ++ sep40 ++ ['\n']
    ++ ("Best response: ").data ++ (rs.headD emptyCand).response ++ (" (Grade: ").data
    ++ (toString ((rs.headD emptyCand).grade.getD 0)).data ++ (")\n").data

/-! ## Concrete fixtures (used by the closed witness theorems) -/

/-- An oracle on which every call succeeds: seed texts of distinct lengths,
grading texts scoring a response by its length, so that the sort reorders. -/
def oracleOk : Oracle :=
  { seed := fun i => .ok (("answer ").data ++ List.replicate (i + 1) 'a')
    seedTime := fun i => 150 + i
    feedback := fun r => .ok (("feedback on ").data ++ r)
    feedbackTime := fun round i => 200 + 10 * round + i
    gradeRaw := fun r _ => .ok ((toString r.length).data ++ (" out of 100").data)
    gradeTime := fun round i => 300 + 10 * round + i
    refine := fun r => .ok (("refined ").data ++ r)
    totalTime := 12345 }

/-- An oracle whose grading text contains no grade pattern (everything else
succeeds), driving the run into the uncaught `ValueError`. -/
def oracleParseFail : Oracle :=
  { oracleOk with gradeRaw := fun _ _ => .ok ("no grade here").data }

/-- An oracle whose feedback call reports a client-level failure. -/
def oracleClientFail : Oracle :=
  { oracleOk with feedback := fun _ => .error ("Throttling").data }

/-- A fully graded candidate (all dictionary keys present). -/
def mkGraded (t : List Char) (g : Int) : Candidate :=
  { response := t, feedback := some (("fb of ").data ++ t), grade := some g,
    time_taken := 107, feedback_time_taken := some 230, grade_time_taken := some 305 }

/-- The candidate list of the spec's stability example: grades `[10, 30, 30, -5]`,
the two grade-30 candidates distinguished by their texts. -/
def exStability : List Candidate :=
  [mkGraded ("first").data 10, mkGraded ("second").data 30,
   mkGraded ("third").data 30, mkGraded ("fourth").data (-5)]

/-- Seed list produced by `oracleOk` (extracted for the witnesses). -/
def exSeeds : List Candidate :=
  match seedMany oracleOk 3 with
  | .ok cs => cs
  | .error _ => []

/-- Graded list after the feedback/grade pass of round 0 on `exSeeds`. -/
def exGraded : List Candidate :=
  match fgList oracleOk 0 0 exSeeds with
  | .ok g => g
  | .error _ => []

/-- The result of a full round 0 on `exSeeds`. -/
def exRound : List Candidate :=
  match runRound oracleOk 0 exSeeds with
  | .ok rs => rs
  | .error _ => []

/-- The transcript of a completed one-iteration run on `oracleOk`. -/
def exTranscript : List Char :=
  match mainRun oracleOk 1 with
  | .completed t => t
  | _ => []

/-! # Theorems

## Basic facts about the string machinery -/

theorem findOcc_sound {sep : List Char} :
    ∀ {s b a : List Char}, findOcc sep s = some (b, a) → s = b ++ sep ++ a := by
  intro s
  induction s with
  | nil =>
    intro b a h
    simp only [findOcc] at h
    split at h
    · rename_i hs
      simp only [Option.some.injEq, Prod.mk.injEq] at h
      obtain ⟨rfl, rfl⟩ := h
      obtain rfl : sep = [] := List.isEmpty_iff.mp hs
      rfl
    · exact absurd h (by simp)
  | cons c rest ih =>
    intro b a h
    simp only [findOcc] at h
    split at h
    · rename_i hp
      simp only [Option.some.injEq, Prod.mk.injEq] at h
      obtain ⟨rfl, rfl⟩ := h
      obtain ⟨t, ht⟩ : sep <+: c :: rest := List.isPrefixOf_iff_prefix.mp hp
      rw [← ht, List.drop_left, List.nil_append]
    · split at h
      · rename_i b' a' heq
        simp only [Option.some.injEq, Prod.mk.injEq] at h
        obtain ⟨rfl, rfl⟩ := h
        have := ih heq
        simp [this]
      · exact absurd h (by simp)

theorem findOcc_none_of_noPrefix {sep : List Char} :
    ∀ {s : List Char}, NoPrefixBefore sep s (s.length + 1) → findOcc sep s = none := by
  intro s
  induction s with
  | nil =>
    intro h
    have h0 := h 0 (by omega)
    simp only [List.drop_nil] at h0
    simp only [findOcc]
    split
    · rename_i hs
      obtain rfl : sep = [] := List.isEmpty_iff.mp hs
      exact absurd (by simp [List.isPrefixOf]) h0
    · rfl
  | cons c rest ih =>
    intro h
    have h0 := h 0 (by omega)
    simp only [List.drop_zero] at h0
    simp only [findOcc]
    rw [if_neg (by simpa using h0)]
    have hrest : NoPrefixBefore sep rest (rest.length + 1) := by
      intro i hi
      have := h (i + 1) (by simpa using Nat.succ_lt_succ hi)
      simpa using this
    rw [ih hrest]

theorem findOcc_some_of_decomp {sep : List Char} :
    ∀ {b s a : List Char}, s = b ++ sep ++ a → NoPrefixBefore sep s b.length →
      findOcc sep s = some (b, a) := by
  intro b
  induction b with
  | nil =>
    intro s a hs _
    simp only [List.nil_append] at hs
    subst hs
    cases hsep : sep with
    | nil =>
      cases a with
      | nil => simp [findOcc]
      | cons x t => simp [findOcc, List.isPrefixOf]
    | cons c t =>
      have hp : (c :: t).isPrefixOf ((c :: t) ++ a) = true :=
        List.isPrefixOf_iff_prefix.mpr (List.prefix_append _ _)
      show findOcc (c :: t) (c :: (t ++ a)) = some ([], a)
      simp only [findOcc]
      rw [if_pos (by simpa using hp)]
      simp only [List.length_cons, List.drop_succ_cons, List.drop_left]
  | cons x b' ih =>
    intro s a hs hnp
    subst hs
    simp only [findOcc]
    have h0 := hnp 0 (by simp)
    rw [if_neg (by simpa using h0)]
    have hrest : NoPrefixBefore sep (b' ++ sep ++ a) b'.length := by
      intro i hi
      have := hnp (i + 1) (by simpa using Nat.succ_lt_succ hi)
      simpa using this
    simp only [List.append_eq]
    rw [ih rfl hrest]

theorem pySplitGo_congr {sep : List Char} (hsep : sep ≠ []) :
    ∀ {f1 : Nat} {f2 : Nat} {s : List Char}, s.length < f1 → s.length < f2 →
      pySplitGo sep f1 s = pySplitGo sep f2 s := by
  intro f1
  induction f1 with
  | zero => intro f2 s h1 _; omega
  | succ f1 ih =>
    intro f2 s h1 h2
    cases f2 with
    | zero => omega
    | succ f2 =>
      cases heq : findOcc sep s with
      | none => simp [pySplitGo, heq]
      | some p =>
        obtain ⟨b, a⟩ := p
        have hdec := findOcc_sound heq
        have hlen : a.length < s.length := by
          subst hdec
          have : 1 ≤ sep.length := by
            cases sep with
            | nil => exact absurd rfl hsep
            | cons _ _ => simp
          simp only [List.length_append]
          omega
        simp only [pySplitGo, heq]
        exact congrArg _ (ih (by omega) (by omega))

theorem pySplit_of_findOcc_none {sep s : List Char} (h : findOcc sep s = none) :
    pySplit sep s = [s] := by
  simp [pySplit, pySplitGo, h]

theorem pySplit_of_findOcc_some {sep s b a : List Char} (hsep : sep ≠ [])
    (h : findOcc sep s = some (b, a)) : pySplit sep s = b :: pySplit sep a := by
  have hdec := findOcc_sound h
  have hlen : a.length < s.length := by
    subst hdec
    have : 1 ≤ sep.length := by
      cases sep with
      | nil => exact absurd rfl hsep
      | cons _ _ => simp
    simp only [List.length_append]
    omega
  have step : pySplitGo sep (s.length + 1) s = b :: pySplitGo sep s.length a := by
    simp only [pySplitGo, h]
  simp only [pySplit]
  rw [step]
  exact congrArg _ (pySplitGo_congr hsep (by omega) (by omega))

theorem pySplit_ne_nil {sep s : List Char} : pySplit sep s ≠ [] := by
  simp only [pySplit, pySplitGo]
  cases findOcc sep s with
  | none => simp
  | some p => cases p; simp

theorem occursSub_of_findOcc_some {sep s b a : List Char}
    (h : findOcc sep s = some (b, a)) : OccursSub sep s :=
  ⟨b, a, findOcc_sound h⟩

theorem findOcc_none_of_not_occurs {sep s : List Char} (h : ¬ OccursSub sep s) :
    findOcc sep s = none := by
  cases heq : findOcc sep s with
  | none => rfl
  | some p =>
    obtain ⟨b, a⟩ := p
    exact absurd (occursSub_of_findOcc_some heq) h

theorem not_occurs_of_char_notMem {sep s : List Char} {c : Char} (hc : c ∈ sep)
    (hs : c ∉ s) : ¬ OccursSub sep s := by
  rintro ⟨b, a, rfl⟩
  exact hs (by simp [hc])

/-- Each part of a split is a factor of the original string, and — except for
the last part — is followed in the original string by the separator. -/
theorem mem_pySplit_ctx {sep : List Char} (hsep : sep ≠ []) :
    ∀ (n : Nat) (s p : List Char), s.length ≤ n → p ∈ pySplit sep s →
      ∃ u v, s = u ++ p ++ v ∧ (v = [] ∨ sep.isPrefixOf v = true) := by
  intro n
  induction n with
  | zero =>
    intro s p hn hp
    obtain rfl : s = [] := List.length_eq_zero.mp (Nat.le_zero.mp hn)
    cases heq : findOcc sep [] with
    | none =>
      rw [pySplit_of_findOcc_none heq] at hp
      obtain rfl : p = [] := by simpa using hp
      exact ⟨[], [], by simp⟩
    | some q =>
      obtain ⟨b, a⟩ := q
      have := findOcc_sound heq
      cases sep with
      | nil => exact absurd rfl hsep
      | cons c t => simp at this
  | succ n ih =>
    intro s p hn hp
    cases heq : findOcc sep s with
    | none =>
      rw [pySplit_of_findOcc_none heq] at hp
      obtain rfl : p = s := by simpa using hp
      exact ⟨[], [], by simp⟩
    | some q =>
      obtain ⟨b, a⟩ := q
      have hdec := findOcc_sound heq
      rw [pySplit_of_findOcc_some hsep heq] at hp
      rcases List.mem_cons.mp hp with rfl | hp2
      · refine ⟨[], sep ++ a, by simp [hdec], Or.inr ?_⟩
        exact List.isPrefixOf_iff_prefix.mpr (List.prefix_append _ _)
      · have hlen : a.length ≤ n := by
          have h1 : 1 ≤ sep.length := by
            cases sep with
            | nil => exact absurd rfl hsep
            | cons _ _ => simp
          have : s.length = b.length + sep.length + a.length := by
            simp [hdec]
            omega
          omega
        obtain ⟨u, v, huv, hv⟩ := ih a p hlen hp2
        exact ⟨b ++ sep ++ u, v, by simp [hdec, huv], hv⟩

/-- Characters of a part come from the original string. -/
theorem mem_of_mem_pySplit {sep : List Char} (hsep : sep ≠ []) {s p : List Char}
    {c : Char} (hp : p ∈ pySplit sep s) (hc : c ∈ p) : c ∈ s := by
  obtain ⟨u, v, rfl, -⟩ := mem_pySplit_ctx hsep s.length s p le_rfl hp
  simp [hc]

theorem joinWith_cons {sep : List Char} {p : List Char} {ps : List (List Char)}
    (h : ps ≠ []) : joinWith sep (p :: ps) = p ++ sep ++ joinWith sep ps := by
  cases ps with
  | nil => exact absurd rfl h
  | cons q qs => simp [joinWith]

theorem mem_joinWith {sep : List Char} :
    ∀ {ps : List (List Char)} {c : Char}, c ∈ joinWith sep ps →
      c ∈ sep ∨ ∃ p ∈ ps, c ∈ p := by
  intro ps
  induction ps with
  | nil => intro c h; simp [joinWith] at h
  | cons p ps ih =>
    intro c h
    cases ps with
    | nil =>
      simp only [joinWith] at h
      exact Or.inr ⟨p, by simp, h⟩
    | cons q qs =>
      rw [joinWith_cons (by simp)] at h
      rcases List.mem_append.mp h with h1 | h2
      · rcases List.mem_append.mp h1 with h3 | h4
        · exact Or.inr ⟨p, by simp, h3⟩
        · exact Or.inl h4
      · rcases ih h2 with h5 | ⟨r, hr, hcr⟩
        · exact Or.inl h5
        · exact Or.inr ⟨r, by simp [hr], hcr⟩

/-- If the pattern does not occur, `replace` is the identity. -/
theorem pyReplace_of_not_occurs {old new s : List Char} (h : ¬ OccursSub old s) :
    pyReplace old new s = s := by
  simp [pyReplace, pySplit_of_findOcc_none (findOcc_none_of_not_occurs h), joinWith]

/-- If some character of the pattern is missing from the string, `replace` is
the identity. -/
theorem pyReplace_id_of_char_notMem {old new s : List Char} {c : Char}
    (hc : c ∈ old) (hs : c ∉ s) : pyReplace old new s = s :=
  pyReplace_of_not_occurs (not_occurs_of_char_notMem hc hs)

/-- A character absent from both the string and the replacement is absent from
the result of `replace`. -/
theorem notMem_pyReplace {old new s : List Char} (hsep : old ≠ []) {c : Char}
    (hs : c ∉ s) (hn : c ∉ new) : c ∉ pyReplace old new s := by
  intro hmem
  rcases mem_joinWith hmem with h1 | ⟨p, hp, hcp⟩
  · exact hn h1
  · exact hs (mem_of_mem_pySplit hsep hp hcp)

/-- Python `strip` is the identity on a string whose first and last characters are
not whitespace. -/
theorem stripChars_eq_self {s : List Char}
    (hh : ∀ c, s.head? = some c → isSpaceChar c = false)
    (hl : ∀ c, s.getLast? = some c → isSpaceChar c = false) :
    stripChars s = s := by
  have h1 : s.dropWhile isSpaceChar = s := by
    cases s with
    | nil => rfl
    | cons c t => rw [List.dropWhile_cons_of_neg (by simp [hh c rfl])]
  have h2 : s.reverse.dropWhile isSpaceChar = s.reverse := by
    cases hrev : s.reverse with
    | nil => rfl
    | cons c t =>
      have hcl : s.getLast? = some c := by
        rw [← List.head?_reverse, hrev]
        rfl
      rw [List.dropWhile_cons_of_neg (by simp [hl c hcl])]
  simp [stripChars, h1, h2]

/-! ## C2: splitting the transcript at the marker -/

theorem marker_ne_nil : marker ≠ [] := by decide

/-- C2 (counterexample): with two occurrences of the marker, the summary part
is the text strictly between the first and the second occurrence, not
"everything after the first marker" as the claim states: on
`"A\nSUMMARY OF PROCESS\nB\nSUMMARY OF PROCESS\nC"` the code yields `"B"`,
while the claim demands `"B\nSUMMARY OF PROCESS\nC"`. -/
theorem summaryPart_two_markers_counterexample :
    summaryPart ("A\nSUMMARY OF PROCESS\nB\nSUMMARY OF PROCESS\nC").data = ("B").data ∧
      summaryPart ("A\nSUMMARY OF PROCESS\nB\nSUMMARY OF PROCESS\nC").data
        ≠ ("B\nSUMMARY OF PROCESS\nC").data := by
  constructor
  · decide
  · decide

/-- C2 (amended): `generate_html` splits the content on all occurrences of
`"SUMMARY OF PROCESS"`.  The response part is everything before the first
occurrence, trimmed (and the whole content when the marker is absent, with
summary `""`).  The summary part is everything after the first occurrence,
trimmed, only when the marker occurs exactly once; when it occurs again, the
summary part is the text strictly between the first and the second
occurrence, trimmed. -/
theorem generate_html_split_amended :
    (∀ content, NoPrefixBefore marker content (content.length + 1) →
        responsePart content = stripChars content ∧ summaryPart content = []) ∧
    (∀ b rest, NoPrefixBefore marker (b ++ marker ++ rest) b.length →
        NoPrefixBefore marker rest (rest.length + 1) →
        responsePart (b ++ marker ++ rest) = stripChars b ∧
          summaryPart (b ++ marker ++ rest) = stripChars rest) ∧
    (∀ b m rest,
        NoPrefixBefore marker (b ++ marker ++ (m ++ marker ++ rest)) b.length →
        NoPrefixBefore marker (m ++ marker ++ rest) m.length →
        responsePart (b ++ marker ++ (m ++ marker ++ rest)) = stripChars b ∧
          summaryPart (b ++ marker ++ (m ++ marker ++ rest)) = stripChars m) := by
  refine ⟨?_, ?_, ?_⟩
  · intro content h
    have hnone := findOcc_none_of_noPrefix h
    have hsplit := pySplit_of_findOcc_none hnone
    constructor
    · simp [responsePart, hsplit]
    · simp [summaryPart, hsplit]
  · intro b rest hb hrest
    have h1 : findOcc marker (b ++ marker ++ rest) = some (b, rest) :=
      findOcc_some_of_decomp rfl hb
    have h2 := findOcc_none_of_noPrefix hrest
    have hsplit : pySplit marker (b ++ marker ++ rest) = b :: [rest] := by
      rw [pySplit_of_findOcc_some marker_ne_nil h1, pySplit_of_findOcc_none h2]
    simp only [List.append_assoc] at hsplit
    constructor
    · simp [responsePart, hsplit]
    · simp [summaryPart, hsplit]
  · intro b m rest hb hm
    have h1 : findOcc marker (b ++ marker ++ (m ++ marker ++ rest))
        = some (b, m ++ marker ++ rest) := findOcc_some_of_decomp rfl hb
    have h2 : findOcc marker (m ++ marker ++ rest) = some (m, rest) :=
      findOcc_some_of_decomp rfl hm
    have hsplit : pySplit marker (b ++ marker ++ (m ++ marker ++ rest))
        = b :: m :: pySplit marker rest := by
      rw [pySplit_of_findOcc_some marker_ne_nil h1,
        pySplit_of_findOcc_some marker_ne_nil h2]
    simp only [List.append_assoc] at hsplit
    constructor
    · simp [responsePart, hsplit]
    · simp [summaryPart, hsplit]

/-- Closed witness for `generate_html_split_amended`, at the two-marker
content `"A\n" ++ marker ++ "\nB\n" ++ marker ++ "\nC"`. -/
theorem generate_html_split_amended_witness :
    responsePart (("A\n").data ++ marker ++ (("\nB\n").data ++ marker ++ ("\nC").data))
        = stripChars ("A\n").data ∧
      summaryPart (("A\n").data ++ marker ++ (("\nB\n").data ++ marker ++ ("\nC").data))
        = stripChars ("\nB\n").data :=
  generate_html_split_amended.2.2 ("A\n").data ("\nB\n").data ("\nC").data
    (by decide) (by decide)

/-! ## C9: error handling of `generate_html` -/

/-- C9: `generate_html` never raises on file-access errors.  A missing input
file and an unreadable input file are each caught narrowly and reported only
by a printed console message, after which the function returns early — with a
`readFailed` outcome no HTML output is produced at all.  An unwritable output
file is likewise caught and reported only by a console message.  On success
the document is written and a success message printed; no outcome carries a
process exit code. -/
theorem generate_html_error_handling :
    (∀ w, generate_html .fileNotFound w
        = .readFailed ("Error: response.txt file not found.").data) ∧
    (∀ w, generate_html .readFailure w
        = .readFailed ("Error: Unable to read response.txt file.").data) ∧
    (∀ content, generate_html (.fileOk content) .writeFailure
        = .writeFailed ("Error: Unable to write to response.html file.").data) ∧
    (∀ content, generate_html (.fileOk content) .writeOk
        = .success (htmlDoc content)
            ("HTML file \x27response.html\x27 has been generated successfully.").data) :=
  ⟨fun _ => rfl, fun _ => rfl, fun _ => rfl, fun _ => rfl⟩

/-! ## C3: nothing is written before the marker -/

theorem marker_head : marker = 'S' :: ("UMMARY OF PROCESS").data := by decide

theorem isPrefixOf_cons_ne {a b : Char} {as bs : List Char} (h : ¬ a = b) :
    (a :: as).isPrefixOf (b :: bs) = false := by
  simp [List.isPrefixOf, h]

/-- On a transcript that begins with a newline followed directly by the
marker, the response section recovered by `htmlize.py` is empty. -/
theorem responsePart_of_marker_head (r : List Char) :
    responsePart ('\n' :: (marker ++ ('\n' :: r))) = [] := by
  have hb : NoPrefixBefore marker (['\n'] ++ marker ++ ('\n' :: r)) 1 := by
    intro i hi
    obtain rfl : i = 0 := by omega
    rw [List.drop_zero, marker_head]
    show ¬ (('S' :: ("UMMARY OF PROCESS").data).isPrefixOf
      ('\n' :: (("UMMARY OF PROCESS").data ++ ('\n' :: r))) = true)
    rw [isPrefixOf_cons_ne (by decide)]
    simp
  have h1 : findOcc marker (['\n'] ++ marker ++ ('\n' :: r))
      = some (['\n'], '\n' :: r) := findOcc_some_of_decomp rfl hb
  have hsplit := pySplit_of_findOcc_some marker_ne_nil h1
  unfold responsePart
  rw [show ('\n' :: (marker ++ ('\n' :: r))) = ['\n'] ++ marker ++ ('\n' :: r) from by simp,
    hsplit]
  show stripChars ['\n'] = []
  decide

/-- A summary text always begins with a newline, the marker, and a newline. -/
theorem summaryText_shape {tt : Nat} {rs : List Candidate} {t : List Char}
    (h : summaryText tt rs = some t) :
    ∃ r, t = '\n' :: (marker ++ ('\n' :: r)) := by
  cases rs with
  | nil => exact Option.noConfusion h
  | cons r0 tl =>
    simp only [summaryText, Option.map_eq_some'] at h
    obtain ⟨blocks, hblk, hval⟩ := h
    refine ⟨(sep40 ++ ['\n'] ++ ("Total time taken for the process: ").data
      ++ format2dp tt ++ (" seconds\n").data) ++ blocks ++ bestLine r0, ?_⟩
    rw [← hval]
    unfold summaryHeader
    rw [show ("\nSUMMARY OF PROCESS\n").data = '\n' :: (marker ++ ['\n']) from by decide]
    simp

/-- C3 (code_bug evidence): the run writes nothing before the marker.  The
transcript of every completed run starts with a newline followed directly by
the literal marker line, so the "response" section before the marker — which
the spec requires and which `htmlize.py` extracts as `parts[0]` — is empty. -/
theorem transcript_has_no_text_before_marker (o : Oracle) (n : Nat) (t : List Char)
    (h : mainRun o n = .completed t) :
    (∃ r, t = '\n' :: (marker ++ ('\n' :: r))) ∧ responsePart t = [] := by
  have hex : ∃ r, t = '\n' :: (marker ++ ('\n' :: r)) := by
    unfold mainRun at h
    split at h
    · exact absurd h (by simp)
    · exact absurd h (by simp)
    · next rs heq =>
      split at h
      · next txt hs =>
        simp only [RunOutcome.completed.injEq] at h
        subst h
        exact summaryText_shape hs
      · next hs => exact absurd h (by simp)
  obtain ⟨r, hr⟩ := hex
  exact ⟨⟨r, hr⟩, hr ▸ responsePart_of_marker_head r⟩

/-- Closed witness: a concrete completed run (`oracleOk`, one iteration)
whose transcript has an empty response section before the marker. -/
theorem transcript_has_no_text_before_marker_witness :
    (∃ r, exTranscript = '\n' :: (marker ++ ('\n' :: r))) ∧
      responsePart exTranscript = [] :=
  transcript_has_no_text_before_marker oracleOk 1 exTranscript rfl

/-! ## C1: the grade extractor -/

theorem isSpaceChar_false_of_isDigit {c : Char} (h : c.isDigit = true) :
    isSpaceChar c = false := by
  cases hsp : isSpaceChar c
  · rfl
  · exfalso
    have hc : c = ' ' ∨ c = '\t' ∨ c = '\n' ∨ c = '\r' ∨ c = '\x0B' ∨ c = '\x0C' := by
      unfold isSpaceChar at hsp
      simp only [Bool.or_eq_true, beq_iff_eq] at hsp
      tauto
    rcases hc with rfl | rfl | rfl | rfl | rfl | rfl <;> exact absurd h (by decide)

theorem beq_dash_false_of_isDigit {c : Char} (h : c.isDigit = true) :
    (c == '-') = false := by
  cases hd : c == '-'
  · rfl
  · exact absurd h (by rw [show c = '-' from beq_iff_eq.mp hd]; decide)

/-- A position whose character is neither a digit nor a minus sign cannot
start a match. -/
theorem tryMatchAt_skip {prev : Option Char} {c : Char} {s : List Char}
    (h1 : c.isDigit = false) (h2 : (c == '-') = false) :
    tryMatchAt prev (c :: s) = none := by
  simp [tryMatchAt, h1, h2]

/-- The helper `takeExactDigits` fails when the front character is not a digit. -/
theorem takeExactDigits_fail {k : Nat} (hk : 1 ≤ k) :
    ∀ {s : List Char}, (∀ c, s.head? = some c → c.isDigit = false) →
      takeExactDigits k s = none := by
  intro s hs
  cases s with
  | nil =>
    have hne : ¬ (0 = k) := by omega
    simp [takeExactDigits, hne]
  | cons c rest =>
    cases k with
    | zero => omega
    | succ k =>
      simp [takeExactDigits, List.take_succ_cons, List.all_cons, hs c rfl]

theorem attemptDigits_fail {neg : Bool} {s : List Char}
    (h : ∀ c, s.head? = some c → c.isDigit = false) :
    attemptDigits neg s = none := by
  unfold attemptDigits attemptLen
  rw [takeExactDigits_fail (by omega) h, takeExactDigits_fail (by omega) h,
    takeExactDigits_fail (by omega) h]
  rfl

/-- On a digit-free string every position fails, so the search fails. -/
theorem searchGrade_none_of_no_digits :
    ∀ {s : List Char} (prev : Option Char), (∀ c ∈ s, c.isDigit = false) →
      searchGrade prev s = none := by
  intro s
  induction s with
  | nil => intro prev _; rfl
  | cons c rest ih =>
    intro prev h
    have hc : c.isDigit = false := h c (by simp)
    have hrest : ∀ c ∈ rest, c.isDigit = false := fun d hd => h d (by simp [hd])
    have hhead : ∀ d, rest.head? = some d → d.isDigit = false := by
      intro d hd
      cases rest with
      | nil => exact absurd hd (by simp)
      | cons e t =>
        have he : e = d := by simpa using hd
        subst he
        exact hrest e (by simp)
    have htm : tryMatchAt prev (c :: rest) = none := by
      simp only [tryMatchAt]
      by_cases hdash : (c == '-') = true
      · rw [if_pos hdash, attemptDigits_fail hhead]
        split <;> rfl
      · rw [if_neg hdash, if_neg (by simp [hc])]
    simp only [searchGrade]
    rw [htm]
    exact ih (some c) hrest

theorem mem_stripChars {s : List Char} {c : Char} (h : c ∈ stripChars s) : c ∈ s := by
  unfold stripChars at h
  rw [List.mem_reverse] at h
  have h2 := (List.dropWhile_sublist _).mem h
  rw [List.mem_reverse] at h2
  exact (List.dropWhile_sublist _).mem h2

/-- Skipping a digit-free, dash-free prefix: the search continues after it,
with the previous-character state advanced through the prefix. -/
theorem searchGrade_skip :
    ∀ (pre : List Char) (prev : Option Char) (rest : List Char),
      (∀ c ∈ pre, c.isDigit = false ∧ (c == '-') = false) →
      searchGrade prev (pre ++ rest)
        = searchGrade (pre.foldl (fun _ c => some c) prev) rest := by
  intro pre
  induction pre with
  | nil => intro prev rest _; rfl
  | cons c pre ih =>
    intro prev rest h
    have hc := h c (by simp)
    have hpre : ∀ d ∈ pre, d.isDigit = false ∧ (d == '-') = false :=
      fun d hd => h d (by simp [hd])
    show searchGrade prev (c :: (pre ++ rest)) = _
    simp only [searchGrade]
    rw [tryMatchAt_skip hc.1 hc.2]
    exact ih (some c) rest hpre

theorem prevIsWord_foldl_false :
    ∀ (pre : List Char) (prev : Option Char),
      pre.getLast?.all (fun c => !isWordChar c) = true →
      (pre = [] → prevIsWord prev = false) →
      prevIsWord (pre.foldl (fun _ c => some c) prev) = false := by
  intro pre
  induction pre with
  | nil => intro prev _ h0; exact h0 rfl
  | cons c pre ih =>
    intro prev hlast _
    show prevIsWord (pre.foldl (fun _ c => some c) (some c)) = false
    cases pre with
    | nil =>
      simp only [List.getLast?_singleton, Option.all_some, Bool.not_eq_true'] at hlast
      simpa [prevIsWord] using hlast
    | cons d t =>
      refine ih (some c) ?_ (by simp)
      rw [List.getLast?_cons_cons] at hlast
      exact hlast

theorem out_data : ("out").data = ['o', 'u', 't'] := by decide

theorem of_data : ("of").data = ['o', 'f'] := by decide

theorem hundred_data : ("100").data = ['1', '0', '0'] := by decide

theorem outof100_data :
    (" out of 100").data = [' ', 'o', 'u', 't', ' ', 'o', 'f', ' ', '1', '0', '0'] := by
  decide

theorem lookAfter_lit (post : List Char) :
    lookAfter (' ' :: 'o' :: 'u' :: 't' :: ' ' :: 'o' :: 'f' :: ' ' :: '1' :: '0' :: '0'
      :: post) = true := by
  simp +decide [lookAfter, out_data, of_data, hundred_data, List.isPrefixOf]

theorem boundaryAfter_lit (post : List Char) :
    boundaryAfter (' ' :: 'o' :: 'u' :: 't' :: ' ' :: 'o' :: 'f' :: ' ' :: '1' :: '0' :: '0'
      :: post) = true := by
  simp +decide [boundaryAfter, isWordChar]

/-- Greedy digit matching at the start of `<digits> out of 100 <post>`:
the whole digit run (one to three digits) is matched and decoded. -/
theorem attemptDigits_digits (post : List Char) :
    ∀ ds : List Char, ds ≠ [] → ds.length ≤ 3 → (∀ c ∈ ds, c.isDigit = true) →
      attemptDigits false (ds ++ ((" out of 100").data ++ post))
        = some ((decodeDigits ds : Int)) := by
  intro ds h1 h2 h3
  rcases ds with _ | ⟨a, _ | ⟨b, _ | ⟨c, _ | ⟨d, t⟩⟩⟩⟩
  · exact absurd rfl h1
  · have ha := h3 a (by simp)
    simp +decide [attemptDigits, attemptLen, takeExactDigits, outof100_data, ha,
      lookAfter_lit, boundaryAfter_lit]
  · have ha := h3 a (by simp)
    have hb := h3 b (by simp)
    simp +decide [attemptDigits, attemptLen, takeExactDigits, outof100_data, ha, hb,
      lookAfter_lit, boundaryAfter_lit]
  · have ha := h3 a (by simp)
    have hb := h3 b (by simp)
    have hc := h3 c (by simp)
    simp +decide [attemptDigits, attemptLen, takeExactDigits, outof100_data, ha, hb, hc,
      lookAfter_lit, boundaryAfter_lit]
  · simp at h2

/-- One step of the search. -/
theorem searchGrade_cons (prev : Option Char) (c : Char) (rest : List Char) :
    searchGrade prev (c :: rest)
      = match tryMatchAt prev (c :: rest) with
        | some v => some v
        | none => searchGrade (some c) rest := rfl

/-- At a digit with a non-word previous character, the position matches via
the digit branch. -/
theorem tryMatchAt_digit {prev : Option Char} {c : Char} {rest : List Char}
    (hd : c.isDigit = true) (hJ : prevIsWord prev = false) :
    tryMatchAt prev (c :: rest) = attemptDigits false (c :: rest) := by
  simp only [tryMatchAt]
  rw [if_neg (by simp [beq_dash_false_of_isDigit hd]), if_pos hd, if_neg (by simp [hJ])]

/-- The search at the digit run itself: with a non-word previous character,
the digits match and decode. -/
theorem searchGrade_at_digits {prev : Option Char} (hJ : prevIsWord prev = false)
    (post : List Char) (ds : List Char) (hne : ds ≠ []) (hlen : ds.length ≤ 3)
    (hdig : ∀ c ∈ ds, c.isDigit = true) :
    searchGrade prev (ds ++ ((" out of 100").data ++ post))
      = some ((decodeDigits ds : Int)) := by
  cases ds with
  | nil => exact absurd rfl hne
  | cons d ds' =>
    have hd : d.isDigit = true := hdig d (by simp)
    have hatt := attemptDigits_digits post (d :: ds') (by simp) hlen hdig
    rw [List.cons_append] at hatt
    rw [List.cons_append, searchGrade_cons, tryMatchAt_digit hd hJ, hatt]

theorem grade_response_of_search {t : List Char} {v : Int}
    (hstrip : stripChars t = t) (h : searchGrade none t = some v) :
    grade_response t = .ok v := by
  unfold grade_response
  rw [hstrip, h]

theorem zero_notSpace : isSpaceChar '0' = false := by decide

theorem outof100_getLast : ((" out of 100").data).getLast? = some '0' := by decide

/-- C1 (counterexample): `"-50 out of 100"` contains the claimed pattern with
the integer `-50` (one to three digits, leading minus), but the extractor
returns `50`: the word boundary `\b` in the regex cannot sit between a
non-word character (or the start of the text) and the minus sign, so the
minus is dropped and only the digits are matched. -/
theorem grade_response_minus_counterexample :
    SpecGradePattern ("-50 out of 100").data (-50) ∧
      grade_response ("-50 out of 100").data = .ok 50 ∧
      grade_response ("-50 out of 100").data ≠ .ok (-50) := by
  refine ⟨⟨by norm_num, by norm_num, [], [], by decide⟩, by decide, by decide⟩

/-- C1 (amended): the extractor returns the integer decoded from the digits of
a word-boundary-delimited run of one to three digits immediately followed by
optional whitespace, `out`, `of`, `100` — here in the literal shape
`<digits> out of 100`.  The minus sign is not part of the match unless it is
directly preceded by a word character, so the value returned for such an
occurrence is the non-negative digit value (first conjunct; the prefix before
the digits may be any digit-free, dash-free text not ending in a word
character).  A text containing no digit at all always raises the parse
failure with the line-73 message (second conjunct). -/
theorem grade_response_amended :
    (∀ pre ds post : List Char,
        (∀ c ∈ pre, c.isDigit = false ∧ (c == '-') = false) →
        pre.head?.all (fun c => !isSpaceChar c) = true →
        pre.getLast?.all (fun c => !isWordChar c) = true →
        ds ≠ [] → ds.length ≤ 3 → (∀ c ∈ ds, c.isDigit = true) →
        post.getLast?.all (fun c => !isSpaceChar c) = true →
        grade_response (pre ++ ds ++ (" out of 100").data ++ post)
          = .ok ((decodeDigits ds : Int))) ∧
    (∀ t : List Char, (∀ c ∈ t, c.isDigit = false) →
        grade_response t = .error (gradeErrMsg (stripChars t))) := by
  constructor
  · intro pre ds post hpre hh hl hne hlen hdig hpost
    have hassoc : pre ++ ds ++ (" out of 100").data ++ post
        = pre ++ (ds ++ ((" out of 100").data ++ post)) := by simp
    have hstrip : stripChars (pre ++ ds ++ (" out of 100").data ++ post)
        = pre ++ ds ++ (" out of 100").data ++ post := by
      apply stripChars_eq_self
      · intro c hc
        cases pre with
        | nil =>
          cases ds with
          | nil => exact absurd rfl hne
          | cons d ds' =>
            simp only [List.nil_append, List.cons_append, List.head?_cons,
              Option.some.injEq] at hc
            subst hc
            exact isSpaceChar_false_of_isDigit (hdig _ (by simp))
        | cons p pre' =>
          simp only [List.cons_append, List.head?_cons, Option.some.injEq] at hc
          subst hc
          simpa using hh
      · intro c hc
        rw [List.getLast?_append] at hc
        cases hpl : post.getLast? with
        | some l =>
          rw [hpl] at hc
          simp only [Option.or_some, Option.some.injEq] at hc
          subst hc
          rw [hpl] at hpost
          simpa using hpost
        | none =>
          rw [hpl] at hc
          simp only [Option.none_or] at hc
          rw [List.getLast?_append, outof100_getLast] at hc
          simp only [Option.or_some, Option.some.injEq] at hc
          subst hc
          decide
    apply grade_response_of_search hstrip
    rw [hassoc, searchGrade_skip pre none _ hpre]
    exact searchGrade_at_digits (prevIsWord_foldl_false pre none hl (fun _ => rfl))
      post ds hne hlen hdig
  · intro t hnd
    have hs : ∀ c ∈ stripChars t, c.isDigit = false := fun c hc => hnd c (mem_stripChars hc)
    unfold grade_response
    rw [searchGrade_none_of_no_digits none hs]

/-- Closed witness for `grade_response_amended`: the out-of-range text
`": 250 out of 100!"` yields exactly 250 (no clamping), and the digit-free
text `"hello"` raises the parse failure. -/
theorem grade_response_amended_witness :
    grade_response ((": ").data ++ ("250").data ++ (" out of 100").data ++ ("!").data)
        = .ok ((decodeDigits ("250").data : Int)) ∧
      grade_response ("hello").data = .error (gradeErrMsg (stripChars ("hello").data)) :=
  ⟨grade_response_amended.1 (": ").data ("250").data ("!").data (by decide) (by decide)
      (by decide) (by decide) (by decide) (by decide) (by decide),
    grade_response_amended.2 ("hello").data (by decide)⟩

/-! ## C4: the sort is stable, descending by grade -/

theorem insertCand_perm (c : Candidate) (l : List Candidate) :
    List.Perm (insertCand c l) (c :: l) := by
  induction l with
  | nil => exact List.Perm.refl _
  | cons d ds ih =>
    unfold insertCand
    split
    · exact List.Perm.refl _
    · exact (ih.cons d).trans (List.Perm.swap c d ds)

theorem mem_insertCand {x c : Candidate} {l : List Candidate} :
    x ∈ insertCand c l ↔ x = c ∨ x ∈ l := by
  rw [(insertCand_perm c l).mem_iff, List.mem_cons]

theorem pairwise_insertCand {c : Candidate} {l : List Candidate}
    (h : List.Pairwise (fun a b => gradeKey b ≤ gradeKey a) l) :
    List.Pairwise (fun a b => gradeKey b ≤ gradeKey a) (insertCand c l) := by
  induction l with
  | nil => simp [insertCand]
  | cons d ds ih =>
    rw [List.pairwise_cons] at h
    unfold insertCand
    split
    · next hle =>
      rw [List.pairwise_cons]
      refine ⟨?_, List.pairwise_cons.mpr h⟩
      intro x hx
      rcases List.mem_cons.mp hx with rfl | hx2
      · exact hle
      · exact le_trans (h.1 x hx2) hle
    · next hlt =>
      rw [List.pairwise_cons]
      refine ⟨?_, ih h.2⟩
      intro x hx
      rcases mem_insertCand.mp hx with rfl | hx2
      · omega
      · exact h.1 x hx2

theorem filter_insertCand (c : Candidate) (l : List Candidate) (g : Int) :
    (insertCand c l).filter (fun x => gradeKey x == g)
      = if gradeKey c == g then c :: l.filter (fun x => gradeKey x == g)
        else l.filter (fun x => gradeKey x == g) := by
  induction l with
  | nil => simp [insertCand, List.filter_cons]
  | cons d ds ih =>
    unfold insertCand
    split
    · next hle => rw [List.filter_cons]
    · next hlt =>
      by_cases hqc : (gradeKey c == g) = true
      · have hcg : gradeKey c = g := beq_iff_eq.mp hqc
        have hqd : (gradeKey d == g) = false := by
          cases hd : gradeKey d == g
          · rfl
          · have := beq_iff_eq.mp hd
            omega
        simp only [List.filter_cons, hqd, if_pos hqc, ih, hqc]
        simp
      · have hqc2 : (gradeKey c == g) = false := by simpa using hqc
        simp only [List.filter_cons, ih, hqc2]
        simp [List.filter_cons]

theorem sortResponses_filter (l : List Candidate) (g : Int) :
    (sortResponses l).filter (fun x => gradeKey x == g)
      = l.filter (fun x => gradeKey x == g) := by
  induction l with
  | nil => rfl
  | cons c ds ih =>
    show (insertCand c (sortResponses ds)).filter _ = _
    rw [filter_insertCand, ih]
    by_cases hqc : (gradeKey c == g) = true
    · simp [List.filter_cons, hqc]
    · have hqc2 : (gradeKey c == g) = false := by simpa using hqc
      simp [List.filter_cons, hqc2]

theorem find?_eq_head?_filterList (p : Candidate → Bool) :
    ∀ l : List Candidate, l.find? p = (l.filter p).head? := by
  intro l
  induction l with
  | nil => rfl
  | cons c ds ih =>
    cases hp : p c with
    | true =>
      rw [List.find?_cons_of_pos _ hp, List.filter_cons_of_pos hp]
      rfl
    | false =>
      rw [List.find?_cons_of_neg _ (by simp [hp]), List.filter_cons_of_neg (by simp [hp]), ih]

/-- C4: `sorted(responses, key=lambda x: x['grade'], reverse=True)` is a
stable descending sort.  The result is a permutation of the input, sorted by
grade descending; candidates of any fixed grade keep their input order (the
filter formulation of stability); the head of the result is the first
candidate of the input attaining the maximum grade (so exactly one best
candidate is determined, ties broken by original list order); and on the
spec's example with grades `[10, 30, 30, -5]` the two grade-30 candidates
stay in input order. -/
theorem sortResponses_stable_descending :
    (∀ l, List.Perm (sortResponses l) l) ∧
    (∀ l, List.Pairwise (fun a b => gradeKey b ≤ gradeKey a) (sortResponses l)) ∧
    (∀ l g, (sortResponses l).filter (fun x => gradeKey x == g)
        = l.filter (fun x => gradeKey x == g)) ∧
    (∀ l c l', sortResponses l = c :: l' →
        (∀ d ∈ l, gradeKey d ≤ gradeKey c) ∧
          l.find? (fun d => gradeKey d == gradeKey c) = some c) ∧
    sortResponses exStability
      = [mkGraded ("second").data 30, mkGraded ("third").data 30,
         mkGraded ("first").data 10, mkGraded ("fourth").data (-5)] := by
  have hperm : ∀ l, List.Perm (sortResponses l) l := by
    intro l
    induction l with
    | nil => exact List.Perm.refl _
    | cons c ds ih =>
      exact (insertCand_perm c _).trans (ih.cons c)
  have hsorted : ∀ l, List.Pairwise (fun a b => gradeKey b ≤ gradeKey a) (sortResponses l) := by
    intro l
    induction l with
    | nil => exact List.Pairwise.nil
    | cons c ds ih => exact pairwise_insertCand ih
  refine ⟨hperm, hsorted, sortResponses_filter, ?_, by decide⟩
  intro l c l' h
  have hmax : ∀ d ∈ l, gradeKey d ≤ gradeKey c := by
    intro d hd
    have hd2 : d ∈ c :: l' := by
      rw [← h]
      exact ((hperm l).mem_iff).mpr hd
    rcases List.mem_cons.mp hd2 with rfl | hd3
    · exact le_refl _
    · have := hsorted l
      rw [h, List.pairwise_cons] at this
      exact this.1 d hd3
  refine ⟨hmax, ?_⟩
  rw [find?_eq_head?_filterList, ← sortResponses_filter, h,
    List.filter_cons_of_pos (by simp)]
  rfl

/-- Closed witness for `sortResponses_stable_descending`, discharging the
head-characterization hypothesis on the `[10, 30, 30, -5]` example. -/
theorem sortResponses_stable_descending_witness :
    (∀ d ∈ exStability, gradeKey d ≤ gradeKey (mkGraded ("second").data 30)) ∧
      exStability.find? (fun d => gradeKey d == gradeKey (mkGraded ("second").data 30))
        = some (mkGraded ("second").data 30) :=
  sortResponses_stable_descending.2.2.2.1 exStability (mkGraded ("second").data 30)
    [mkGraded ("third").data 30, mkGraded ("first").data 10, mkGraded ("fourth").data (-5)]
    (by decide)

/-! ## C5: refinement replaces only the top candidate's text -/

theorem refineStep_cons (o : Oracle) (c : Candidate) (rest : List Candidate) :
    refineStep o (c :: rest)
      = match o.refine c.response with
        | .error m => .error (.clientError m)
        | .ok t => .ok ({ c with response := t } :: rest) := rfl

/-- C5: in a round, after the grading pass and the sort, the refinement step
replaces only the `response` text of the top-ranked candidate (index 0 of the
sorted list).  The refined head keeps its `feedback`, `grade` and all three
timing fields (the record update touches `response` alone), and the tail —
every other candidate — is returned unchanged. -/
theorem refine_replaces_only_top_text (o : Oracle) (round : Nat)
    (rs g rs' : List Candidate) (c : Candidate) (rest : List Candidate)
    (hg : fgList o round 0 rs = .ok g)
    (hsort : sortResponses g = c :: rest)
    (hrun : runRound o round rs = .ok rs') :
    ∃ t, o.refine c.response = .ok t ∧
      rs' = { response := t, feedback := c.feedback, grade := c.grade,
              time_taken := c.time_taken,
              feedback_time_taken := c.feedback_time_taken,
              grade_time_taken := c.grade_time_taken } :: rest := by
  unfold runRound at hrun
  simp only [hg] at hrun
  rw [hsort, refineStep_cons] at hrun
  cases hr : o.refine c.response with
  | error m =>
    rw [hr] at hrun
    exact absurd hrun (by simp)
  | ok t =>
    rw [hr] at hrun
    simp only [Except.ok.injEq] at hrun
    exact ⟨t, rfl, hrun.symm⟩

/-- Closed witness for `refine_replaces_only_top_text` on the concrete
round-0 run over the `oracleOk` seeds. -/
theorem refine_replaces_only_top_text_witness :
    ∃ t, oracleOk.refine ((sortResponses exGraded).headD emptyCand).response = .ok t ∧
      exRound = { response := t,
                  feedback := ((sortResponses exGraded).headD emptyCand).feedback,
                  grade := ((sortResponses exGraded).headD emptyCand).grade,
                  time_taken := ((sortResponses exGraded).headD emptyCand).time_taken,
                  feedback_time_taken :=
                    ((sortResponses exGraded).headD emptyCand).feedback_time_taken,
                  grade_time_taken :=
                    ((sortResponses exGraded).headD emptyCand).grade_time_taken }
        :: (sortResponses exGraded).tail :=
  refine_replaces_only_top_text oracleOk 0 exSeeds exGraded exRound
    ((sortResponses exGraded).headD emptyCand) ((sortResponses exGraded).tail)
    (by decide) (by decide) (by decide)

/-! ## C6: error handling of the run -/

theorem seedMany_error {o : Oracle} :
    ∀ {k : Nat} {e : PyError}, seedMany o k = .error e → ∃ m, e = .clientError m := by
  intro k
  induction k with
  | zero => intro e h; exact absurd h (by simp [seedMany])
  | succ k ih =>
    intro e h
    unfold seedMany at h
    cases hk : seedMany o k with
    | error e1 =>
      rw [hk] at h
      simp only [Except.error.injEq] at h
      subst h
      exact ih hk
    | ok cs =>
      rw [hk] at h
      cases hs : o.seed k with
      | error m =>
        rw [hs] at h
        simp only [Except.error.injEq] at h
        exact ⟨m, h.symm⟩
      | ok t =>
        rw [hs] at h
        exact absurd h (by simp)

theorem grade_response_error_shape {t m : List Char}
    (h : grade_response t = .error m) : ∃ s, m = gradeErrMsg s := by
  unfold grade_response at h
  cases hs : searchGrade none (stripChars t) with
  | some v => rw [hs] at h; exact absurd h (by simp)
  | none =>
    rw [hs] at h
    simp only [Except.error.injEq] at h
    exact ⟨stripChars t, h.symm⟩

theorem stepCandidate_gradeParse {o : Oracle} {r i : Nat} {c : Candidate} {m : List Char}
    (h : stepCandidate o r i c = .error (.gradeParse m)) : ∃ s, m = gradeErrMsg s := by
  unfold stepCandidate at h
  cases hf : o.feedback c.response with
  | error m1 => rw [hf] at h; exact absurd h (by simp)
  | ok fb =>
    simp only [hf] at h
    cases hg : o.gradeRaw c.response fb with
    | error m2 => rw [hg] at h; exact absurd h (by simp)
    | ok gtext =>
      simp only [hg] at h
      cases hgr : grade_response gtext with
      | error m3 =>
        simp only [hgr, Except.error.injEq, PyError.gradeParse.injEq] at h
        subst h
        exact grade_response_error_shape hgr
      | ok g =>
        simp only [hgr] at h
        exact absurd h (by simp)

theorem fgList_gradeParse {o : Oracle} {r : Nat} :
    ∀ {i : Nat} {rs : List Candidate} {m : List Char},
      fgList o r i rs = .error (.gradeParse m) → ∃ s, m = gradeErrMsg s := by
  intro i rs
  induction rs generalizing i with
  | nil => intro m h; exact absurd h (by simp [fgList])
  | cons c cs ih =>
    intro m h
    unfold fgList at h
    cases hc : stepCandidate o r i c with
    | error e =>
      rw [hc] at h
      simp only [Except.error.injEq] at h
      subst h
      exact stepCandidate_gradeParse hc
    | ok c1 =>
      rw [hc] at h
      cases hcs : fgList o r (i + 1) cs with
      | error e =>
        rw [hcs] at h
        simp only [Except.error.injEq] at h
        subst h
        exact ih hcs
      | ok cs1 => rw [hcs] at h; exact absurd h (by simp)

theorem refineStep_error {o : Oracle} {rs : List Candidate} {e : PyError}
    (h : refineStep o rs = .error e) : ∃ m, e = .clientError m := by
  cases rs with
  | nil => exact absurd h (by simp [refineStep])
  | cons c rest =>
    rw [refineStep_cons] at h
    cases hr : o.refine c.response with
    | error m =>
      rw [hr] at h
      simp only [Except.error.injEq] at h
      exact ⟨m, h.symm⟩
    | ok t => rw [hr] at h; exact absurd h (by simp)

theorem runRound_gradeParse {o : Oracle} {r : Nat} {rs : List Candidate} {m : List Char}
    (h : runRound o r rs = .error (.gradeParse m)) : ∃ s, m = gradeErrMsg s := by
  unfold runRound at h
  cases hg : fgList o r 0 rs with
  | error e =>
    rw [hg] at h
    simp only [Except.error.injEq] at h
    subst h
    exact fgList_gradeParse hg
  | ok g =>
    rw [hg] at h
    show ∃ s, m = gradeErrMsg s
    have h2 : refineStep o (sortResponses g) = .error (.gradeParse m) := h
    obtain ⟨m1, hm1⟩ := refineStep_error h2
    exact absurd hm1 (by simp)

theorem runRoundsFrom_gradeParse {o : Oracle} :
    ∀ {k r : Nat} {rs : List Candidate} {m : List Char},
      runRoundsFrom o r k rs = .error (.gradeParse m) → ∃ s, m = gradeErrMsg s := by
  intro k
  induction k with
  | zero => intro r rs m h; exact absurd h (by simp [runRoundsFrom])
  | succ k ih =>
    intro r rs m h
    unfold runRoundsFrom at h
    cases hr : runRound o r rs with
    | error e =>
      rw [hr] at h
      simp only [Except.error.injEq] at h
      subst h
      exact runRound_gradeParse hr
    | ok rs1 =>
      rw [hr] at h
      exact ih h

/-- C6: every failing run is handled exactly as the claim's taxonomy demands.
If the body of the run fails with a client-level error, `main` catches it at
the top level, prints `A client error occurred: <msg>`, and the file holds no
partial transcript (all model calls precede all writes, so the truncated file
is empty); if it fails with a grade-parse failure, the error escapes `main`
uncaught — there is no recovery path — again with nothing written.  Moreover
every grade-parse failure originates in `grade_response`: its message is the
line-73 message for some grading text. -/
theorem run_error_handling :
    (∀ (o : Oracle) (n : Nat) (e : PyError), runBody o n = .error e →
        mainRun o n = match e with
          | .clientError m => .abortedClient (clientPrint m) []
          | .gradeParse m => .uncaughtGradeParse m []) ∧
    (∀ (o : Oracle) (n : Nat) (m : List Char), runBody o n = .error (.gradeParse m) →
        ∃ s, m = gradeErrMsg s) := by
  constructor
  · intro o n e h
    unfold mainRun
    rw [h]
    cases e <;> rfl
  · intro o n m h
    unfold runBody at h
    cases hs : seedMany o 3 with
    | error e =>
      rw [hs] at h
      simp only [Except.error.injEq] at h
      obtain ⟨m1, hm1⟩ := seedMany_error hs
      rw [h] at hm1
      exact absurd hm1 (by simp)
    | ok seeds =>
      rw [hs] at h
      exact runRoundsFrom_gradeParse h

/-- Closed witness for `run_error_handling`: a run whose grading text is
`"no grade here"` escapes with the uncaught parse failure and an empty file,
and its message is the `grade_response` message for that text. -/
theorem run_error_handling_witness :
    mainRun oracleParseFail 1
      = .uncaughtGradeParse (gradeErrMsg (("no grade here").data)) [] ∧
      ∃ s, gradeErrMsg (("no grade here").data) = gradeErrMsg s :=
  ⟨run_error_handling.1 oracleParseFail 1
      (.gradeParse (gradeErrMsg (("no grade here").data))) (by decide),
    run_error_handling.2 oracleParseFail 1 (gradeErrMsg (("no grade here").data))
      (by decide)⟩

/-! ## C7: layout of the summary -/

theorem summaryBlocks_eq :
    ∀ (i : Nat) (rs : List Candidate),
      (∀ c ∈ rs, c.feedback.isSome = true ∧ c.grade.isSome = true ∧
        c.feedback_time_taken.isSome = true ∧ c.grade_time_taken.isSome = true) →
      summaryBlocks i rs
        = some (((List.enumFrom i rs).map (fun p => specBlock p.1 p.2)).flatten) := by
  intro i rs
  induction rs generalizing i with
  | nil => intro _; rfl
  | cons c cs ih =>
    intro h
    obtain ⟨h1, h2, h3, h4⟩ := h c (by simp)
    obtain ⟨fb, hfb⟩ := Option.isSome_iff_exists.mp h1
    obtain ⟨g, hg⟩ := Option.isSome_iff_exists.mp h2
    obtain ⟨ft, hft⟩ := Option.isSome_iff_exists.mp h3
    obtain ⟨gt, hgt⟩ := Option.isSome_iff_exists.mp h4
    have hrest := ih (i + 1) (fun d hd => h d (by simp [hd]))
    have hblk : candidateBlock i c = some (specBlock i c) := by
      simp only [candidateBlock, specBlock, optStrText, optIntText, hfb, hft, hgt, hg,
        Option.getD_some]
    unfold summaryBlocks
    rw [hrest, hblk]
    simp

/-- C7: after the rounds, the summary written to the transcript is exactly the
spec's layout: the marker line, a separator of 40 `=`, the total wall-clock
time with two decimals, one block per candidate in list order (text, feedback,
grade, three two-decimal timing lines), a trailing separator, and the final
`Best response: <text> (Grade: <grade>)` line for the index-0 candidate. -/
theorem summary_layout (tt : Nat) (rs : List Candidate) (hne : rs ≠ [])
    (h : ∀ c ∈ rs, c.feedback.isSome = true ∧ c.grade.isSome = true ∧
      c.feedback_time_taken.isSome = true ∧ c.grade_time_taken.isSome = true) :
    summaryText tt rs = some (specSummary tt rs) := by
  cases rs with
  | nil => exact absurd rfl hne
  | cons r0 tl =>
    obtain ⟨h1, h2, h3, h4⟩ := h r0 (by simp)
    obtain ⟨g, hg⟩ := Option.isSome_iff_exists.mp h2
    simp only [summaryText]
    rw [summaryBlocks_eq 0 (r0 :: tl) h]
    simp only [Option.map_some']
    unfold summaryHeader bestLine specSummary optIntText List.enum
    rw [hg, show ("\nSUMMARY OF PROCESS\n").data = '\n' :: (marker ++ ['\n']) from by decide]
    simp
    rw [hg, Option.getD_some]

/-- Closed witness for `summary_layout` on the graded fixture list. -/
theorem summary_layout_witness :
    summaryText 12345 exGraded = some (specSummary 12345 exGraded) :=
  summary_layout 12345 exGraded (by decide) (by decide)

/-! ## C8: the escaping step is not idempotent -/

/-- C8 (counterexample): on the claim's own test input (containing `<`, `&`
and `**bold**`) a second application of the escaping step changes the text
again — the ampersands of the entities produced by the first pass and the
angle brackets of the inserted `<strong>` tags are re-escaped. -/
theorem renderBody_not_idempotent_counterexample :
    renderBody (renderBody ("<&**bold**").data) ≠ renderBody ("<&**bold**").data ∧
      renderBody ("<&**bold**").data = ("&lt;&amp;<strong>bold<strong>").data ∧
      renderBody (renderBody ("<&**bold**").data)
        = ("&amp;lt;&amp;amp;&lt;strong&gt;bold&lt;strong&gt;").data := by
  refine ⟨by decide, by decide, by decide⟩

/-- C8 (amended): the escaping of `generate_html` is not idempotent in
general (see the counterexample).  A sufficient condition for idempotence:
on text containing none of the characters any of its substitutions react to
(`&`, `<`, `>`, `"`, `'`, `*`, newline) it is the identity, so a second
application changes nothing.  This condition is sufficient, not necessary —
for example a lone `*` is left untouched, so such text is also a fixed
point. -/
theorem renderBody_idempotent_amended :
    ∀ s : List Char,
      (∀ c ∈ s, c ≠ '&' ∧ c ≠ '<' ∧ c ≠ '>' ∧ c ≠ '\x22' ∧ c ≠ '\x27' ∧ c ≠ '*' ∧ c ≠ '\n') →
      renderBody s = s ∧ renderBody (renderBody s) = renderBody s := by
  intro s h
  have hamp : '&' ∉ s := fun hm => (h _ hm).1 rfl
  have hlt : '<' ∉ s := fun hm => (h _ hm).2.1 rfl
  have hgt : '>' ∉ s := fun hm => (h _ hm).2.2.1 rfl
  have hq : '\x22' ∉ s := fun hm => (h _ hm).2.2.2.1 rfl
  have hap : '\x27' ∉ s := fun hm => (h _ hm).2.2.2.2.1 rfl
  have hast : '*' ∉ s := fun hm => (h _ hm).2.2.2.2.2.1 rfl
  have hnl : '\n' ∉ s := fun hm => (h _ hm).2.2.2.2.2.2 rfl
  have hid : renderBody s = s := by
    unfold renderBody htmlEscape
    rw [pyReplace_id_of_char_notMem (show '&' ∈ ['&'] by simp) hamp,
      pyReplace_id_of_char_notMem (show '<' ∈ ['<'] by simp) hlt,
      pyReplace_id_of_char_notMem (show '>' ∈ ['>'] by simp) hgt,
      pyReplace_id_of_char_notMem (show '\x22' ∈ ['\x22'] by simp) hq,
      pyReplace_id_of_char_notMem (show '\x27' ∈ ['\x27'] by simp) hap,
      pyReplace_id_of_char_notMem (show '*' ∈ ("**").data by decide) hast,
      pyReplace_id_of_char_notMem (show '<' ∈ ("</strong>**").data by decide) hlt,
      pyReplace_id_of_char_notMem (show '\n' ∈ ['\n', '\n'] by simp) hnl,
      pyReplace_id_of_char_notMem (show '\n' ∈ ['\n'] by simp) hnl]
  exact ⟨hid, by rw [hid, hid]⟩

/-- Closed witness for `renderBody_idempotent_amended` at `"hello world"`. -/
theorem renderBody_idempotent_amended_witness :
    renderBody ("hello world").data = ("hello world").data ∧
      renderBody (renderBody ("hello world").data) = renderBody ("hello world").data :=
  renderBody_idempotent_amended ("hello world").data (by decide)

/-! ## C10: the rendered body never contains a closing strong tag -/

theorem lt_decomp_cons {x : Char} {L b₁ b₂ : List Char}
    (h : x :: L = b₁ ++ '<' :: b₂) :
    (b₁ = [] ∧ x = '<' ∧ b₂ = L) ∨ (∃ b₁', b₁ = x :: b₁' ∧ L = b₁' ++ '<' :: b₂) := by
  cases b₁ with
  | nil =>
    simp only [List.nil_append, List.cons.injEq] at h
    exact Or.inl ⟨rfl, h.1, h.2.symm⟩
  | cons y b₁' =>
    simp only [List.cons_append, List.cons.injEq] at h
    exact Or.inr ⟨b₁', by rw [h.1], h.2⟩

theorem nil_no_lt {b₂ a : List Char} (h : ([] : List Char) = b₂ ++ '<' :: a) : False := by
  cases b₂ <;> simp at h

theorem mem_of_lt_decomp {e b a : List Char} (h : e = b ++ '<' :: a) : '<' ∈ e := by
  rw [h]; simp

/-- The only `<` of `<strong>` is its first character. -/
theorem strong_lt_decomp {b₁ b₂ : List Char}
    (h : ("<strong>").data = b₁ ++ '<' :: b₂) :
    b₁ = [] ∧ b₂ = ("strong>").data := by
  rw [show ("<strong>").data = '<' :: ("strong>").data from by decide] at h
  rcases lt_decomp_cons h with ⟨rfl, _, rfl⟩ | ⟨b₁', rfl, h2⟩
  · exact ⟨rfl, rfl⟩
  · exact absurd (mem_of_lt_decomp h2) (by decide)

/-- The `<` positions of `</p><p>`: its first character, or the one after
`</p>`. -/
theorem ptag_lt_decomp {b₁ b₂ : List Char}
    (h : ("</p><p>").data = b₁ ++ '<' :: b₂) :
    (b₁ = [] ∧ b₂ = ("/p><p>").data) ∨ (b₁ = ("</p>").data ∧ b₂ = ("p>").data) := by
  rw [show ("</p><p>").data
      = '<' :: '/' :: 'p' :: '>' :: '<' :: 'p' :: '>' :: [] from by decide] at h
  rcases lt_decomp_cons h with ⟨rfl, -, rfl⟩ | ⟨c₁, rfl, h1⟩
  · exact Or.inl ⟨rfl, by decide⟩
  rcases lt_decomp_cons h1 with ⟨rfl, hx, rfl⟩ | ⟨c₂, rfl, h2⟩
  · exact absurd hx (by decide)
  rcases lt_decomp_cons h2 with ⟨rfl, hx, rfl⟩ | ⟨c₃, rfl, h3⟩
  · exact absurd hx (by decide)
  rcases lt_decomp_cons h3 with ⟨rfl, hx, rfl⟩ | ⟨c₄, rfl, h4⟩
  · exact absurd hx (by decide)
  rcases lt_decomp_cons h4 with ⟨rfl, -, rfl⟩ | ⟨c₅, rfl, h5⟩
  · exact Or.inr ⟨by decide, by decide⟩
  rcases lt_decomp_cons h5 with ⟨rfl, hx, rfl⟩ | ⟨c₆, rfl, h6⟩
  · exact absurd hx (by decide)
  rcases lt_decomp_cons h6 with ⟨rfl, hx, rfl⟩ | ⟨c₇, rfl, h7⟩
  · exact absurd hx (by decide)
  exact absurd h7 (fun hc => nil_no_lt hc)

/-- The only `<` of `<br>` is its first character. -/
theorem br_lt_decomp {b₁ b₂ : List Char}
    (h : ("<br>").data = b₁ ++ '<' :: b₂) :
    b₁ = [] ∧ b₂ = ("br>").data := by
  rw [show ("<br>").data = '<' :: ("br>").data from by decide] at h
  rcases lt_decomp_cons h with ⟨rfl, _, rfl⟩ | ⟨b₁', rfl, h2⟩
  · exact ⟨rfl, rfl⟩
  · exact absurd (mem_of_lt_decomp h2) (by decide)

/-- Splitting an equation `xs ++ ys = b ++ c :: a` at the distinguished
character: it lies in `xs` or in `ys`. -/
theorem char_split {xs ys b a : List Char} {c : Char} (h : xs ++ ys = b ++ c :: a) :
    (∃ b₂, xs = b ++ c :: b₂ ∧ a = b₂ ++ ys) ∨
      (∃ b₁, b = xs ++ b₁ ∧ ys = b₁ ++ c :: a) := by
  rcases List.append_eq_append_iff.mp h with ⟨a', ha1, ha2⟩ | ⟨c', hc1, hc2⟩
  · exact Or.inr ⟨a', ha1, ha2⟩
  · cases c' with
    | nil =>
      simp only [List.append_nil] at hc1
      exact Or.inr ⟨[], by simp [hc1], by simp [hc2]⟩
    | cons x cr =>
      simp only [List.cons_append, List.cons.injEq] at hc2
      obtain ⟨rfl, rfl⟩ := hc2
      exact Or.inl ⟨cr, by simpa using hc1, rfl⟩

theorem findOcc_ne_none_of_occurs {sep : List Char} :
    ∀ {s : List Char}, OccursSub sep s → findOcc sep s ≠ none := by
  intro s
  induction s with
  | nil =>
    rintro ⟨b, a, hba⟩
    have hsep : sep = [] := by
      cases b <;> cases sep <;> simp_all
    subst hsep
    simp [findOcc]
  | cons c rest ih =>
    rintro ⟨b, a, hba⟩
    simp only [findOcc]
    split
    · simp
    · next hnp =>
      cases b with
      | nil =>
        exfalso
        apply hnp
        apply List.isPrefixOf_iff_prefix.mpr
        exact ⟨a, by simpa using hba.symm⟩
      | cons x b' =>
        simp only [List.cons_append, List.cons.injEq] at hba
        obtain ⟨rfl, hrest⟩ := hba
        have hne := ih ⟨b', a, hrest⟩
        cases hfr : findOcc sep rest with
        | some p =>
          obtain ⟨b2, a2⟩ := p
          simp
        | none => exact absurd hfr hne

theorem findOcc_single_before_free {c0 : Char} :
    ∀ {s b a : List Char}, findOcc [c0] s = some (b, a) → c0 ∉ b := by
  intro s
  induction s with
  | nil => intro b a h; exact absurd h (by simp [findOcc])
  | cons c rest ih =>
    intro b a h
    simp only [findOcc] at h
    split at h
    · simp only [Option.some.injEq, Prod.mk.injEq] at h
      obtain ⟨rfl, rfl⟩ := h
      simp
    · next hnp =>
      split at h
      · next b' a' heq =>
        simp only [Option.some.injEq, Prod.mk.injEq] at h
        obtain ⟨rfl, rfl⟩ := h
        have hcc : ¬ (c0 = c) := by
          intro hc
          subst hc
          exact hnp (by simp [List.isPrefixOf])
        simp only [List.mem_cons]
        rintro (rfl | hmem)
        · exact hcc rfl
        · exact ih heq hmem
      · exact absurd h (by simp)

theorem notMem_parts_single {c0 : Char} :
    ∀ (n : Nat) (s p : List Char), s.length ≤ n → p ∈ pySplit [c0] s → c0 ∉ p := by
  intro n
  induction n with
  | zero =>
    intro s p hn hp
    obtain rfl : s = [] := List.length_eq_zero.mp (Nat.le_zero.mp hn)
    rw [pySplit_of_findOcc_none (by simp [findOcc])] at hp
    obtain rfl : p = [] := by simpa using hp
    simp
  | succ n ih =>
    intro s p hn hp
    cases heq : findOcc [c0] s with
    | none =>
      rw [pySplit_of_findOcc_none heq] at hp
      obtain rfl : p = s := by simpa using hp
      intro hmem
      obtain ⟨l1, l2, hl⟩ := List.append_of_mem hmem
      exact findOcc_ne_none_of_occurs ⟨l1, l2, by simpa using hl⟩ heq
    | some q =>
      obtain ⟨b, a⟩ := q
      have hdec := findOcc_sound heq
      rw [pySplit_of_findOcc_some (by simp) heq] at hp
      rcases List.mem_cons.mp hp with rfl | hp2
      · exact findOcc_single_before_free heq
      · have hlen : a.length ≤ n := by
          have : s.length = b.length + 1 + a.length := by
            simp [hdec]
            omega
          omega
        exact ih a p hlen hp2

theorem notMem_lt_pyReplace_single (x : List Char) :
    '<' ∉ pyReplace ['<'] ("&lt;").data x := by
  intro hmem
  rcases mem_joinWith hmem with h1 | ⟨p, hp, hcp⟩
  · exact absurd h1 (by decide)
  · exact notMem_parts_single x.length x p le_rfl hp hcp

/-- After `html.escape` the text contains no `<` character. -/
theorem htmlEscape_no_lt (s : List Char) : '<' ∉ htmlEscape s := by
  unfold htmlEscape
  exact notMem_pyReplace (by simp)
    (notMem_pyReplace (by simp)
      (notMem_pyReplace (by simp) (notMem_lt_pyReplace_single _) (by decide))
      (by decide))
    (by decide)

theorem ltS_tagOk {e : List Char} (h : LtS e) : TagOk e :=
  fun b a hba => Or.inl (h b a hba)

/-- Joining `<`-free parts with `<strong>`: every `<` of the result opens a
`<strong>` tag. -/
theorem ltS_joinWith :
    ∀ {ps : List (List Char)}, (∀ p ∈ ps, '<' ∉ p) →
      LtS (joinWith ("<strong>").data ps) := by
  intro ps
  induction ps with
  | nil =>
    intro _ b a hba
    exact absurd hba (fun hc => nil_no_lt hc)
  | cons p ps ih =>
    intro h
    cases ps with
    | nil =>
      intro b a hba
      exact absurd (mem_of_lt_decomp hba) (h p (by simp))
    | cons q ps' =>
      intro b a hba
      rw [joinWith_cons (by simp), List.append_assoc] at hba
      rcases char_split hba with ⟨b₂, hxs, hA⟩ | ⟨b₁, hb, hys⟩
      · exact absurd (mem_of_lt_decomp hxs) (h p (by simp))
      · rcases char_split hys with ⟨b₂, hsep, hA⟩ | ⟨b₃, hb2, hJ⟩
        · obtain ⟨rfl, hb2eq⟩ := strong_lt_decomp hsep
          refine ⟨("trong>").data ++ joinWith ("<strong>").data (q :: ps'), ?_⟩
          rw [hA, hb2eq]
          rw [show ("strong>").data = 's' :: ("trong>").data from by decide]
          simp
        · exact ih (fun r hr => h r (by simp [hr])) _ _ hJ

/-- A factor of an `LtS` text whose following context cannot start with `s`
is itself `LtS`. -/
theorem ltS_part {base u p v : List Char} (hbase : LtS base)
    (hdecomp : base = u ++ p ++ v) (hv : ∀ t, v ≠ 's' :: t) : LtS p := by
  intro b a hp
  have hb2 : base = (u ++ b) ++ '<' :: (a ++ v) := by
    rw [hdecomp, hp]
    simp
  obtain ⟨t, ht⟩ := hbase _ _ hb2
  cases a with
  | nil => exact absurd (by simpa using ht) (hv t)
  | cons x a' =>
    simp only [List.cons_append, List.cons.injEq] at ht
    exact ⟨a', by rw [ht.1]⟩

/-- A factor of a `TagOk` text whose following context is empty or starts
with a newline is itself `TagOk`. -/
theorem tagOk_part {base u p v : List Char} (hbase : TagOk base)
    (hdecomp : base = u ++ p ++ v) (hv : v = [] ∨ v.head? = some '\n') : TagOk p := by
  intro b a hp
  have hb2 : base = (u ++ b) ++ '<' :: (a ++ v) := by
    rw [hdecomp, hp]
    simp
  have hvne : ∀ (c : Char) (t : List Char), v = c :: t → c = '\n' := by
    intro c t hv2
    rcases hv with rfl | hh
    · simp at hv2
    · rw [hv2] at hh
      simpa using hh
  rcases hbase _ _ hb2 with ⟨t, ht⟩ | ⟨t, ht⟩ | ⟨t, ht⟩ | ⟨t, ht⟩
  · cases a with
    | nil => exact absurd (hvne 's' t (by simpa using ht)) (by decide)
    | cons x a' =>
      simp only [List.cons_append, List.cons.injEq] at ht
      exact Or.inl ⟨a', by rw [ht.1]⟩
  · cases a with
    | nil => exact absurd (hvne 'b' t (by simpa using ht)) (by decide)
    | cons x a' =>
      simp only [List.cons_append, List.cons.injEq] at ht
      exact Or.inr (Or.inl ⟨a', by rw [ht.1]⟩)
  · cases a with
    | nil => exact absurd (hvne 'p' t (by simpa using ht)) (by decide)
    | cons x a' =>
      simp only [List.cons_append, List.cons.injEq] at ht
      exact Or.inr (Or.inr (Or.inl ⟨a', by rw [ht.1]⟩))
  · cases a with
    | nil => exact absurd (hvne '/' ('p' :: t) (by simpa using ht)) (by decide)
    | cons x a' =>
      simp only [List.cons_append, List.cons.injEq] at ht
      obtain ⟨rfl, ht2⟩ := ht
      cases a' with
      | nil => exact absurd (hvne 'p' t (by simpa using ht2)) (by decide)
      | cons y a'' =>
        simp only [List.cons_append, List.cons.injEq] at ht2
        exact Or.inr (Or.inr (Or.inr ⟨a'', by rw [ht2.1]⟩))

/-- Joining `LtS` parts with `</p><p>`: every `<` of the result opens a
`<strong>`, `</p>` or `<p>` tag. -/
theorem tagOk_joinWith_ptag :
    ∀ {ps : List (List Char)}, (∀ p ∈ ps, LtS p) →
      TagOk (joinWith ("</p><p>").data ps) := by
  intro ps
  induction ps with
  | nil =>
    intro _ b a hba
    exact absurd hba (fun hc => nil_no_lt hc)
  | cons p ps ih =>
    intro h
    cases ps with
    | nil => exact ltS_tagOk (h p (by simp))
    | cons q ps' =>
      intro b a hba
      rw [joinWith_cons (by simp), List.append_assoc] at hba
      rcases char_split hba with ⟨b₂, hxs, hA⟩ | ⟨b₁, hb, hys⟩
      · obtain ⟨t, ht⟩ := h p (by simp) _ _ hxs
        subst ht
        refine Or.inl ⟨t ++ (("</p><p>").data ++ joinWith ("</p><p>").data (q :: ps')), ?_⟩
        rw [hA]
        simp
      · rcases char_split hys with ⟨b₂, hsep, hA⟩ | ⟨b₃, hb2, hJ⟩
        · rcases ptag_lt_decomp hsep with ⟨rfl, rfl⟩ | ⟨rfl, rfl⟩
          · refine Or.inr (Or.inr (Or.inr
              ⟨("><p>").data ++ joinWith ("</p><p>").data (q :: ps'), ?_⟩))
            rw [hA]
            rw [show ("/p><p>").data = '/' :: 'p' :: ("><p>").data from by decide]
            simp
          · refine Or.inr (Or.inr (Or.inl
              ⟨(">").data ++ joinWith ("</p><p>").data (q :: ps'), ?_⟩))
            rw [hA]
            rw [show ("p>").data = 'p' :: (">").data from by decide]
            simp
        · exact ih (fun r hr => h r (by simp [hr])) _ _ hJ

/-- Joining `TagOk` parts with `<br>` keeps `TagOk`. -/
theorem tagOk_joinWith_br :
    ∀ {ps : List (List Char)}, (∀ p ∈ ps, TagOk p) →
      TagOk (joinWith ("<br>").data ps) := by
  intro ps
  induction ps with
  | nil =>
    intro _ b a hba
    exact absurd hba (fun hc => nil_no_lt hc)
  | cons p ps ih =>
    intro h
    cases ps with
    | nil => exact h p (by simp)
    | cons q ps' =>
      intro b a hba
      rw [joinWith_cons (by simp), List.append_assoc] at hba
      rcases char_split hba with ⟨b₂, hxs, hA⟩ | ⟨b₁, hb, hys⟩
      · rcases h p (by simp) _ _ hxs with ⟨t, ht⟩ | ⟨t, ht⟩ | ⟨t, ht⟩ | ⟨t, ht⟩
        · exact Or.inl ⟨t ++ (("<br>").data ++ joinWith ("<br>").data (q :: ps')),
            by rw [hA, ht]; simp⟩
        · exact Or.inr (Or.inl ⟨t ++ (("<br>").data ++ joinWith ("<br>").data (q :: ps')),
            by rw [hA, ht]; simp⟩)
        · exact Or.inr (Or.inr (Or.inl
            ⟨t ++ (("<br>").data ++ joinWith ("<br>").data (q :: ps')),
              by rw [hA, ht]; simp⟩))
        · exact Or.inr (Or.inr (Or.inr
            ⟨t ++ (("<br>").data ++ joinWith ("<br>").data (q :: ps')),
              by rw [hA, ht]; simp⟩))
      · rcases char_split hys with ⟨b₂, hsep, hA⟩ | ⟨b₃, hb2, hJ⟩
        · obtain ⟨rfl, rfl⟩ := br_lt_decomp hsep
          refine Or.inr (Or.inl ⟨("r>").data ++ joinWith ("<br>").data (q :: ps'), ?_⟩)
          rw [hA]
          rw [show ("br>").data = 'b' :: ("r>").data from by decide]
          simp
        · exact ih (fun r hr => h r (by simp [hr])) _ _ hJ

/-- The text after the bold substitution is `LtS`: its only `<` characters
are the ones of inserted `<strong>` tags. -/
theorem ltS_r2 (s : List Char) :
    LtS (pyReplace ("**").data ("<strong>").data (htmlEscape s)) := by
  apply ltS_joinWith
  intro p hp hmem
  exact htmlEscape_no_lt s (mem_of_mem_pySplit (by decide) hp hmem)

/-- An `LtS` text contains no occurrence of `</strong>**`. -/
theorem no_close_pattern_of_ltS {e : List Char} (h : LtS e) :
    ¬ OccursSub ("</strong>**").data e := by
  rintro ⟨b, a, hba⟩
  have h2 : e = b ++ '<' :: ('/' :: (("strong>**").data ++ a)) := by
    rw [hba, show ("</strong>**").data = '<' :: '/' :: ("strong>**").data from by decide]
    simp
  obtain ⟨t, ht⟩ := h _ _ h2
  simp only [List.cons.injEq] at ht
  exact absurd ht.1 (by decide)

/-- A `TagOk` text contains no occurrence of `</strong>`. -/
theorem no_closing_strong_of_tagOk {e : List Char} (h : TagOk e) :
    ¬ OccursSub ("</strong>").data e := by
  rintro ⟨b, a, hba⟩
  have h2 : e = b ++ '<' :: ('/' :: 's' :: (("trong>").data ++ a)) := by
    rw [hba, show ("</strong>").data = '<' :: '/' :: 's' :: ("trong>").data from by decide]
    simp
  rcases h _ _ h2 with ⟨t, ht⟩ | ⟨t, ht⟩ | ⟨t, ht⟩ | ⟨t, ht⟩ <;>
    simp only [List.cons.injEq] at ht
  · exact absurd ht.1 (by decide)
  · exact absurd ht.1 (by decide)
  · exact absurd ht.1 (by decide)
  · exact absurd ht.2.1 (by decide)

/-- After the paragraph substitution the text is `TagOk`. -/
theorem tagOk_stage3 {r2 : List Char} (h : LtS r2) :
    TagOk (pyReplace ['\n', '\n'] ("</p><p>").data r2) := by
  apply tagOk_joinWith_ptag
  intro p hp
  obtain ⟨u, v, hdecomp, hv⟩ := mem_pySplit_ctx (by simp) r2.length r2 p le_rfl hp
  apply ltS_part h hdecomp
  intro t hvt
  rcases hv with rfl | hpre
  · simp at hvt
  · rw [hvt, isPrefixOf_cons_ne (by decide)] at hpre
    exact absurd hpre (by simp)

/-- After the line-break substitution the text is `TagOk`. -/
theorem tagOk_stage4 {r3 : List Char} (h : TagOk r3) :
    TagOk (pyReplace ['\n'] ("<br>").data r3) := by
  apply tagOk_joinWith_br
  intro p hp
  obtain ⟨u, v, hdecomp, hv⟩ := mem_pySplit_ctx (by simp) r3.length r3 p le_rfl hp
  apply tagOk_part h hdecomp
  rcases hv with rfl | hpre
  · exact Or.inl rfl
  · right
    cases v with
    | nil => exact absurd hpre (by simp [List.isPrefixOf])
    | cons c t =>
      cases hcc : ('\n' == c) with
      | false =>
        exfalso
        have hne : ¬ ('\n' = c) := by simpa using hcc
        rw [isPrefixOf_cons_ne hne] at hpre
        exact absurd hpre (by simp)
      | true =>
        rw [List.head?_cons, ← beq_iff_eq.mp hcc]

/-- C10: after `html.escape` the section text contains no `<`; therefore the
first bold replacement only ever inserts opening `<strong>` tags, the string
`</strong>**` never occurs and the second replacement is the identity; and
the final rendered body (after the paragraph and line-break substitutions)
never contains a closing `</strong>` tag — every `**` of the source becomes
an unclosed opening tag. -/
theorem renderBody_no_closing_strong (s : List Char) :
    '<' ∉ htmlEscape s ∧
      pyReplace ("</strong>**").data ("</strong>").data
          (pyReplace ("**").data ("<strong>").data (htmlEscape s))
        = pyReplace ("**").data ("<strong>").data (htmlEscape s) ∧
      ¬ OccursSub ("</strong>").data (renderBody s) := by
  have hr2 := ltS_r2 s
  have hid : pyReplace ("</strong>**").data ("</strong>").data
      (pyReplace ("**").data ("<strong>").data (htmlEscape s))
      = pyReplace ("**").data ("<strong>").data (htmlEscape s) :=
    pyReplace_of_not_occurs (no_close_pattern_of_ltS hr2)
  refine ⟨htmlEscape_no_lt s, hid, ?_⟩
  unfold renderBody
  rw [hid]
  exact no_closing_strong_of_tagOk (tagOk_stage4 (tagOk_stage3 hr2))

/-- Closed witness for `renderBody_no_closing_strong`: on `"a**b**"` the
second bold replacement is the identity. -/
theorem renderBody_no_closing_strong_witness :
    pyReplace ("</strong>**").data ("</strong>").data
        (pyReplace ("**").data ("<strong>").data (htmlEscape ("a**b**").data))
      = pyReplace ("**").data ("<strong>").data (htmlEscape ("a**b**").data) :=
  (renderBody_no_closing_strong ("a**b**").data).2.1
